import Mathlib

/-!
Verification of the Unhaunter lighting engine against its specification.

The relevant Rust code is shallowly embedded in Lean:
* `f32` light quantities are modelled as exact rationals (`ℚ`); the claims
  under study are stated "within floating-point tolerance", and every
  discrepancy established below is a large, exact one.
* `Array3<T>` fields indexed by `(usize, usize, usize)` are modelled as total
  functions `BoardPosition → T` together with an explicit `map_size`; the code
  only accesses them behind `is_in_bounds` checks.
* `HashMap` fields are modelled as association lists or as update functions,
  as spelled out at each definition.
Sources: `src/unlight/src/utils.rs`, `src/ungame/src/board.rs`,
`src/uncore/src/components/board/boardposition.rs`,
`src/uncore/src/types/board/prebaked_lighting_data.rs`.
-/

namespace Unhaunter

/-- Integer tile coordinate (`BoardPosition` in
`uncore/src/components/board/boardposition.rs`): `x, y, z : i64`. -/
structure BoardPosition where
  x : ℤ
  y : ℤ
  z : ℤ
deriving DecidableEq, Repr

/-- Map dimensions `(usize, usize, usize)`. -/
abbrev MapSize := ℕ × ℕ × ℕ

/-- `is_in_bounds` from `unlight/src/utils.rs` lines 15–22: a signed triple is
within the board boundaries. -/
def is_in_bounds (pos : ℤ × ℤ × ℤ) (map_size : MapSize) : Bool :=
  decide (0 ≤ pos.1) && decide (0 ≤ pos.2.1) && decide (0 ≤ pos.2.2) &&
  decide (pos.1 < (map_size.1 : ℤ)) && decide (pos.2.1 < (map_size.2.1 : ℤ)) &&
  decide (pos.2.2 < (map_size.2.2 : ℤ))

/-- In-bounds board positions as a predicate on `BoardPosition`. -/
def inBounds (p : BoardPosition) (ms : MapSize) : Bool :=
  is_in_bounds (p.x, p.y, p.z) ms

/-- All board positions of a map, in the row-major order of
`ndarray::Array3::indexed_iter` (`i` outermost, then `j`, then `k`). -/
def allPositions (ms : MapSize) : List BoardPosition :=
  (List.range ms.1).flatMap fun i =>
    (List.range ms.2.1).flatMap fun j =>
      (List.range ms.2.2).map fun (k : ℕ) => ⟨(i : ℤ), (j : ℤ), (k : ℤ)⟩

/-- Number of tiles of the map (`map_size.0 * map_size.1 * map_size.2`). -/
def volume (ms : MapSize) : ℕ := ms.1 * ms.2.1 * ms.2.2

/-- Modelled from the spec (the struct lives in
`uncore/src/types/board/fielddata.rs`, which is not part of the provided
sources; the spec gives `{lux, transmissivity, color, additional}` and the
provided code reads/writes exactly those fields). `additional: LightData` is
abstracted to a rational. -/
structure LightFieldData where
  lux : ℚ
  transmissivity : ℚ
  color : ℚ × ℚ × ℚ
  additional : ℚ
deriving DecidableEq

/-- Rust `LightFieldData::default()` (all-zero derive semantics). -/
def LightFieldData.default : LightFieldData :=
  { lux := 0, transmissivity := 0, color := (0, 0, 0), additional := 0 }

/-- Modelled from the spec (struct in the missing `fielddata.rs`; field names
and the values written are visible in `ungame/src/board.rs` lines 251–265). -/
structure CollisionFieldData where
  player_free : Bool
  ghost_free : Bool
  see_through : Bool
deriving DecidableEq, Repr

/-- `blend_colors` from `unlight/src/utils.rs` lines 70–85. -/
def blend_colors (c1 : ℚ × ℚ × ℚ) (lux1 : ℚ) (c2 : ℚ × ℚ × ℚ) (lux2 : ℚ) :
    ℚ × ℚ × ℚ :=
  let total_lux := lux1 + lux2
  if total_lux ≤ 0 then (1, 1, 1)
  else ((c1.1 * lux1 + c2.1 * lux2) / total_lux,
        (c1.2.1 * lux1 + c2.2.1 * lux2) / total_lux,
        (c1.2.2 * lux1 + c2.2.2 * lux2) / total_lux)

/-- `update_exposure_and_stats` from `unlight/src/utils.rs` lines 190–213,
restricted to the value it stores into `bf.exposure_lux`: the working light
field is an `Array3` of dimensions `map_size`, and the divisor is
`map_size.0 * map_size.1 * map_size.2`. -/
def update_exposure_and_stats (ms : MapSize) (lfs : BoardPosition → LightFieldData) : ℚ :=
  let total_lux : ℚ := ((allPositions ms).map fun p => (lfs p).lux).sum
  let count : ℚ := (volume ms : ℚ)
  let avg_lux := total_lux / count
  (avg_lux + 2) / 2

/-- The finalization of the full shadow-casting rebuild, `ungame/src/board.rs`
lines 544–550: the average is taken over the entries of the `light_field`
hash map (divisor `bf.light_field.len()`), not over the tiles of the map. -/
def boardfield_finalize_exposure (light_field : List (BoardPosition × LightFieldData)) : ℚ :=
  let total_lux : ℚ := (light_field.map fun kv => kv.2.lux).sum
  let avg_lux := total_lux / (light_field.length : ℚ)
  (avg_lux + 2) / 2

/-- Exposure as the claim words it: global average lux across all tiles of the
map, `(sum of lux over every tile / total tile count + 2) / 2`. Written from
the spec sentence for comparison against the two code paths. -/
def claimed_exposure (tile_luxes : List ℚ) (total_tile_count : ℕ) : ℚ :=
  (tile_luxes.sum / (total_tile_count : ℚ) + 2) / 2

end Unhaunter

namespace Unhaunter

/-- C10: `blend_colors(c1, lux1, c2, lux2)` returns the component-wise
intensity-weighted average `(c1*lux1 + c2*lux2) / (lux1+lux2)` whenever
`lux1 + lux2 > 0`, and exactly white `(1,1,1)` whenever `lux1 + lux2 ≤ 0`. -/
theorem c10_blend_colors_spec (c1 c2 : ℚ × ℚ × ℚ) (lux1 lux2 : ℚ) :
    (lux1 + lux2 ≤ 0 → blend_colors c1 lux1 c2 lux2 = (1, 1, 1)) ∧
    (0 < lux1 + lux2 →
      blend_colors c1 lux1 c2 lux2 =
        ((c1.1 * lux1 + c2.1 * lux2) / (lux1 + lux2),
         (c1.2.1 * lux1 + c2.2.1 * lux2) / (lux1 + lux2),
         (c1.2.2 * lux1 + c2.2.2 * lux2) / (lux1 + lux2))) := by
  constructor
  · intro h
    simp only [blend_colors, if_pos h]
  · intro h
    simp only [blend_colors, if_neg (not_le.mpr h)]

/-- C10 witness: both regimes at concrete inputs. -/
theorem c10_blend_colors_spec_witness :
    blend_colors (1, 0, 0) (-1) (0, 1, 0) 1 = (1, 1, 1) ∧
    blend_colors (1, 0, 0) 1 (0, 1, 0) 3 = (1/4, 3/4, 0) := by
  constructor
  · exact (c10_blend_colors_spec (1, 0, 0) (0, 1, 0) (-1) 1).1 (by norm_num)
  · have h := (c10_blend_colors_spec (1, 0, 0) (0, 1, 0) 1 3).2 (by norm_num)
    rw [h]; norm_num

/-- Derived `BEq` agrees with propositional equality on board positions. -/
theorem bpos_beq_eq (a b : BoardPosition) : (a == b) = decide (a = b) := rfl

/-- Concrete full-rebuild light field used against C1: two entries inside a
3×1×1 map (an in-bounds tile, `(1,0,0)`, holds no entity and hence no entry). -/
def c1LF : List (BoardPosition × LightFieldData) :=
  [(⟨0, 0, 0⟩, { lux := 4, transmissivity := 1, color := (1, 1, 1), additional := 0 }),
   (⟨2, 0, 0⟩, { lux := 0, transmissivity := 1, color := (1, 1, 1), additional := 0 })]

/-- C1 counterexample: on the full shadow-casting rebuild path the code
divides the total lux by `light_field.len()` (here 2), while the claim divides
by the total tile count of the map (here 3): exposure 2 versus 5/3. -/
theorem c1_exposure_counterexample :
    boardfield_finalize_exposure c1LF = 2 ∧
    claimed_exposure ((allPositions (3, 1, 1)).map fun p =>
      ((c1LF.lookup p).getD LightFieldData.default).lux) (volume (3, 1, 1)) = 5 / 3 ∧
    (2 : ℚ) ≠ 5 / 3 := by
  refine ⟨?_, ?_, by norm_num⟩
  · simp [boardfield_finalize_exposure, c1LF]
    norm_num
  · simp [claimed_exposure, allPositions, volume, c1LF, List.range_succ,
      List.lookup, bpos_beq_eq, LightFieldData.default]
    norm_num

/-- C1 (amended): after finalization, on the prebake-based propagator path the
exposure is `(avg_lux + 2)/2` with `avg_lux` averaged over all
`map_size.0 * map_size.1 * map_size.2` tiles, exactly as claimed; on the full
shadow-casting rebuild path the average is instead taken over the entries of
`light_field` (the tiles occupied by at least one entity), with divisor
`light_field.len()`. -/
theorem c1_exposure_amended (ms : MapSize) (lfs : BoardPosition → LightFieldData)
    (lf : List (BoardPosition × LightFieldData))
    (_hms : 0 < volume ms) (_hlf : 0 < lf.length) :
    update_exposure_and_stats ms lfs =
      claimed_exposure ((allPositions ms).map fun p => (lfs p).lux) (volume ms) ∧
    boardfield_finalize_exposure lf =
      claimed_exposure (lf.map fun kv => kv.2.lux) lf.length :=
  ⟨rfl, rfl⟩

/-- C1 witness for the amended theorem at a concrete map and field. -/
theorem c1_exposure_amended_witness :
    update_exposure_and_stats (1, 1, 1) (fun _ => LightFieldData.default) =
      claimed_exposure ((allPositions (1, 1, 1)).map fun _ => (0 : ℚ)) 1 ∧
    boardfield_finalize_exposure [(⟨0, 0, 0⟩, LightFieldData.default)] =
      claimed_exposure [(0 : ℚ)] 1 := by
  have h := c1_exposure_amended (1, 1, 1) (fun _ => LightFieldData.default)
    [(⟨0, 0, 0⟩, LightFieldData.default)] (by decide) (by decide)
  exact ⟨h.1, h.2⟩

end Unhaunter

namespace Unhaunter

/-- Modelled from the spec (the `Behavior` component lives outside the
provided sources): the four flags the collision rebuild reads, namely
`p.movement.walkable`, `p.movement.player_collision`,
`p.movement.ghost_collision` and `p.light.see_through`. -/
structure Behavior where
  walkable : Bool
  player_collision : Bool
  ghost_collision : Bool
  see_through : Bool
deriving DecidableEq

/-- First collision loop of `boardfield_update` (`ungame/src/board.rs` lines
249–257): for every walkable entity insert `{true, true, false}`. -/
def collisionWalkStep (f : BoardPosition → Option CollisionFieldData)
    (pb : BoardPosition × Behavior) : BoardPosition → Option CollisionFieldData :=
  if pb.2.walkable then
    (fun q => if q = pb.1 then some ⟨true, true, false⟩ else f q)
  else f

/-- Second collision loop (`ungame/src/board.rs` lines 258–266): for every
entity with `player_collision` overwrite with
`{false, !ghost_collision, light.see_through}`. -/
def collisionPcStep (f : BoardPosition → Option CollisionFieldData)
    (pb : BoardPosition × Behavior) : BoardPosition → Option CollisionFieldData :=
  if pb.2.player_collision then
    (fun q => if q = pb.1 then some ⟨false, !pb.2.ghost_collision, pb.2.see_through⟩ else f q)
  else f

/-- The collision rebuild of `boardfield_update` (`ungame/src/board.rs` lines
246–267): `collision_field.clear()`, then the two insert loops. The hash map
is modelled as a lookup function, entities by the board position their
`Position` converts to. -/
def collision_rebuild (snapshot : List (BoardPosition × Behavior)) :
    BoardPosition → Option CollisionFieldData :=
  snapshot.foldl collisionPcStep (snapshot.foldl collisionWalkStep fun _ => none)

theorem collision_walk_lookup (l : List (BoardPosition × Behavior))
    (f : BoardPosition → Option CollisionFieldData) (t : BoardPosition) :
    l.foldl collisionWalkStep f t =
      if ∃ pb ∈ l, pb.1 = t ∧ pb.2.walkable = true then some ⟨true, true, false⟩
      else f t := by
  induction l generalizing f with
  | nil => simp
  | cons pb l ih =>
    rw [List.foldl_cons, ih]
    by_cases hcons : ∃ x ∈ pb :: l, x.1 = t ∧ x.2.walkable = true
    · rw [if_pos hcons]
      by_cases htail : ∃ x ∈ l, x.1 = t ∧ x.2.walkable = true
      · rw [if_pos htail]
      · rw [if_neg htail]
        obtain ⟨x, hx, hxe, hxw⟩ := hcons
        rcases List.mem_cons.mp hx with rfl | hx'
        · simp only [collisionWalkStep, hxw, if_true]
          rw [if_pos hxe.symm]
        · exact absurd ⟨x, hx', hxe, hxw⟩ htail
    · have htail : ¬ ∃ x ∈ l, x.1 = t ∧ x.2.walkable = true := fun ⟨x, hx, hp⟩ =>
        hcons ⟨x, List.mem_cons_of_mem _ hx, hp⟩
      rw [if_neg hcons, if_neg htail]
      by_cases hw : pb.2.walkable
      · simp only [collisionWalkStep, hw, if_true]
        by_cases hq : t = pb.1
        · exact absurd ⟨pb, List.mem_cons_self _ _, hq.symm, hw⟩ hcons
        · rw [if_neg hq]
      · simp [collisionWalkStep, hw]

theorem collision_pc_skip (l : List (BoardPosition × Behavior))
    (f : BoardPosition → Option CollisionFieldData) (t : BoardPosition)
    (h : ∀ pb ∈ l, pb.1 = t → pb.2.player_collision = false) :
    l.foldl collisionPcStep f t = f t := by
  induction l generalizing f with
  | nil => rfl
  | cons pb l ih =>
    simp only [List.foldl_cons]
    rw [ih _ fun x hx => h x (List.mem_cons_of_mem _ hx)]
    simp only [collisionPcStep]
    by_cases hpc : pb.2.player_collision = true
    · simp only [if_pos hpc]
      by_cases hq : t = pb.1
      · exact absurd hpc (by simp [h pb (List.mem_cons_self _ _) hq.symm])
      · simp [hq]
    · simp [hpc]

/-- C9: after a collision rebuild, every tile occupied by at least one
walkable entity and by no entity with player collision receives the entry
`{player_free: true, ghost_free: true, see_through: false}` (plain walkable
floor blocks light), while a tile occupied by no entity at all has no entry. -/
theorem c9_collision_rebuild_spec (snapshot : List (BoardPosition × Behavior))
    (t : BoardPosition) :
    ((∃ pb ∈ snapshot, pb.1 = t ∧ pb.2.walkable = true) →
     (∀ pb ∈ snapshot, pb.1 = t → pb.2.player_collision = false) →
     collision_rebuild snapshot t = some ⟨true, true, false⟩) ∧
    ((∀ pb ∈ snapshot, pb.1 ≠ t) → collision_rebuild snapshot t = none) := by
  constructor
  · intro hwalk hnpc
    rw [collision_rebuild, collision_pc_skip _ _ _ hnpc, collision_walk_lookup,
      if_pos hwalk]
  · intro hnone
    rw [collision_rebuild,
      collision_pc_skip _ _ _ fun pb hpb he => absurd he (hnone pb hpb),
      collision_walk_lookup]
    have : ¬ ∃ pb ∈ snapshot, pb.1 = t ∧ pb.2.walkable = true := by
      rintro ⟨pb, hpb, he, -⟩
      exact hnone pb hpb he
    rw [if_neg this]

/-- C9 witness: a walkable floor entity at the origin, a wall (player
collision) elsewhere, and an unoccupied tile. -/
theorem c9_collision_rebuild_spec_witness :
    collision_rebuild
      [(⟨0, 0, 0⟩, ⟨true, false, false, false⟩), (⟨1, 0, 0⟩, ⟨false, true, true, false⟩)]
      ⟨0, 0, 0⟩ = some ⟨true, true, false⟩ ∧
    collision_rebuild
      [(⟨0, 0, 0⟩, ⟨true, false, false, false⟩), (⟨1, 0, 0⟩, ⟨false, true, true, false⟩)]
      ⟨2, 0, 0⟩ = none := by
  constructor
  · exact (c9_collision_rebuild_spec _ _).1
      ⟨(⟨0, 0, 0⟩, ⟨true, false, false, false⟩), by simp, rfl, rfl⟩
      (by intro pb hpb he
          rcases List.mem_cons.mp hpb with rfl | hpb
          · rfl
          · rcases List.mem_cons.mp hpb with rfl | hpb
            · exact absurd (congrArg BoardPosition.x he) (by decide)
            · cases hpb)
  · exact (c9_collision_rebuild_spec _ _).2
      (by intro pb hpb
          rcases List.mem_cons.mp hpb with rfl | hpb
          · intro he; exact absurd (congrArg BoardPosition.x he) (by decide)
          · rcases List.mem_cons.mp hpb with rfl | hpb
            · intro he; exact absurd (congrArg BoardPosition.x he) (by decide)
            · cases hpb)

end Unhaunter

namespace Unhaunter

/-- `LightInfo` from `uncore/src/types/board/prebaked_lighting_data.rs`:
source id (`Option<u32>`), lux, color. -/
structure LightInfo where
  source_id : Option ℕ
  lux : ℚ
  color : ℚ × ℚ × ℚ
deriving DecidableEq

/-- `PrebakedLightingData` from
`uncore/src/types/board/prebaked_lighting_data.rs`. -/
structure PrebakedLightingData where
  light_info : LightInfo
  is_wave_edge : Bool
deriving DecidableEq

/-- One element of the `Vec` returned by `find_wave_edge_tiles`:
`(BoardPosition, u32, f32, (f32,f32,f32), f32)`. -/
structure WaveEdge where
  pos : BoardPosition
  source_id : ℕ
  lux : ℚ
  color : ℚ × ℚ × ℚ
  remaining_distance : ℚ
deriving DecidableEq

/-- `find_wave_edge_tiles` from `unlight/src/utils.rs` lines 244–296.
`prebaked_lighting` is iterated with `indexed_iter` (all in-bounds tiles);
the `HashSet<u32>` of active source ids is modelled as a `Finset ℕ` and the
`HashMap` of door states as an association list probed with `any`. -/
def find_wave_edge_tiles (ms : MapSize) (prebaked : BoardPosition → PrebakedLightingData)
    (active_source_ids : Finset ℕ) (door_states : List ((ℕ × ℕ × ℕ) × Bool)) :
    List WaveEdge :=
  (allPositions ms).filterMap fun p =>
    let prebaked_data := prebaked p
    if prebaked_data.is_wave_edge = false then none
    else
      match prebaked_data.light_info.source_id with
      | none => none
      | some source_id =>
        if source_id ∉ active_source_ids then none
        else
          let is_near_open_door := door_states.any fun d =>
            d.2 && decide (((d.1.1 : ℤ) - p.x).natAbs ≤ 1) &&
            decide (((d.1.2.1 : ℤ) - p.y).natAbs ≤ 1) &&
            decide (((d.1.2.2 : ℤ) - p.z).natAbs ≤ 1)
          if is_near_open_door then
            some ⟨p, source_id, prebaked_data.light_info.lux,
                  prebaked_data.light_info.color, 20⟩
          else none

theorem mem_allPositions (p : BoardPosition) (ms : MapSize) :
    p ∈ allPositions ms ↔ inBounds p ms = true := by
  constructor
  · intro h
    obtain ⟨i, hi, h⟩ := List.mem_flatMap.mp h
    obtain ⟨j, hj, h⟩ := List.mem_flatMap.mp h
    obtain ⟨k, hk, he⟩ := List.mem_map.mp h
    rw [List.mem_range] at hi hj hk
    subst he
    simp only [inBounds, is_in_bounds, Bool.and_eq_true, decide_eq_true_eq]
    refine ⟨⟨⟨⟨⟨?_, ?_⟩, ?_⟩, ?_⟩, ?_⟩, ?_⟩ <;> omega
  · intro h
    simp only [inBounds, is_in_bounds, Bool.and_eq_true, decide_eq_true_eq] at h
    obtain ⟨⟨⟨⟨⟨h1, h2⟩, h3⟩, h4⟩, h5⟩, h6⟩ := h
    apply List.mem_flatMap.mpr
    refine ⟨p.x.toNat, List.mem_range.mpr (by omega), ?_⟩
    apply List.mem_flatMap.mpr
    refine ⟨p.y.toNat, List.mem_range.mpr (by omega), ?_⟩
    apply List.mem_map.mpr
    refine ⟨p.z.toNat, List.mem_range.mpr (by omega), ?_⟩
    cases p with
    | mk x y z =>
      simp only [BoardPosition.mk.injEq]
      exact ⟨Int.toNat_of_nonneg h1, Int.toNat_of_nonneg h2, Int.toNat_of_nonneg h3⟩

/-- C5: a prebaked tile seeds runtime propagation if and only if it is a wave
edge, its `source_id` is present and active, and some open door lies within
Chebyshev distance 1 (any axis offset at most 1, 26-neighborhood including the
tile itself); the seed retains the baked lux/color and gets budget 20. In
particular a wave-edge tile whose source id is absent from the active set is
merely filtered out. -/
theorem c5_wave_edge_selection (ms : MapSize)
    (prebaked : BoardPosition → PrebakedLightingData) (active_source_ids : Finset ℕ)
    (door_states : List ((ℕ × ℕ × ℕ) × Bool)) (w : WaveEdge) :
    w ∈ find_wave_edge_tiles ms prebaked active_source_ids door_states ↔
      (inBounds w.pos ms = true ∧
       (prebaked w.pos).is_wave_edge = true ∧
       (prebaked w.pos).light_info.source_id = some w.source_id ∧
       w.source_id ∈ active_source_ids ∧
       (∃ d ∈ door_states, d.2 = true ∧
          ((d.1.1 : ℤ) - w.pos.x).natAbs ≤ 1 ∧
          ((d.1.2.1 : ℤ) - w.pos.y).natAbs ≤ 1 ∧
          ((d.1.2.2 : ℤ) - w.pos.z).natAbs ≤ 1) ∧
       w.lux = (prebaked w.pos).light_info.lux ∧
       w.color = (prebaked w.pos).light_info.color ∧
       w.remaining_distance = 20) := by
  simp only [find_wave_edge_tiles, List.mem_filterMap]
  constructor
  · rintro ⟨p, hp, hf⟩
    split at hf
    · cases hf
    · rename_i hwave
      split at hf
      · cases hf
      · rename_i source_id hsid
        split at hf
        · cases hf
        · rename_i hactive
          split at hf
          · rename_i hnear
            cases hf
            rw [Bool.not_eq_false] at hwave
            rw [not_not] at hactive
            simp only [List.any_eq_true, Bool.and_eq_true, decide_eq_true_eq] at hnear
            obtain ⟨d, hd, ⟨⟨hdo, hdx⟩, hdy⟩, hdz⟩ := hnear
            exact ⟨(mem_allPositions _ _).mp hp, hwave, hsid, hactive,
              ⟨d, hd, hdo, hdx, hdy, hdz⟩, rfl, rfl, rfl⟩
          · cases hf
  · rintro ⟨hb, hwave, hsid, hactive, ⟨d, hd, hdo, hdx, hdy, hdz⟩, hlux, hcolor, hdist⟩
    refine ⟨w.pos, (mem_allPositions _ _).mpr hb, ?_⟩
    simp only [hwave, hsid, Bool.true_eq_false, if_false]
    rw [if_neg (not_not.mpr hactive)]
    have hnear : (door_states.any fun d =>
        d.2 && decide (((d.1.1 : ℤ) - w.pos.x).natAbs ≤ 1) &&
        decide (((d.1.2.1 : ℤ) - w.pos.y).natAbs ≤ 1) &&
        decide (((d.1.2.2 : ℤ) - w.pos.z).natAbs ≤ 1)) = true := by
      simp only [List.any_eq_true, Bool.and_eq_true, decide_eq_true_eq]
      exact ⟨d, hd, ⟨⟨hdo, hdx⟩, hdy⟩, hdz⟩
    simp only [hnear, if_true]
    cases w with
    | mk pos source_id lux color remaining_distance =>
      simp only at hlux hcolor hdist hsid ⊢
      rw [hlux, hcolor, hdist]

end Unhaunter

namespace Unhaunter

/-- The signed inclusive range `a..=b` as a list. -/
def intRange (a b : ℤ) : List ℤ :=
  (List.range (b - a + 1).toNat).map fun (i : ℕ) => a + (i : ℤ)

theorem intRange_eq_nil {a b : ℤ} (h : b < a) : intRange a b = [] := by
  unfold intRange
  have : (b - a + 1).toNat = 0 := by omega
  rw [this]
  rfl

theorem intRange_cons {a b : ℤ} (h : a ≤ b) : intRange a b = a :: intRange (a + 1) b := by
  unfold intRange
  have h1 : (b - a + 1).toNat = (b - (a + 1) + 1).toNat + 1 := by omega
  rw [h1, List.range_succ_eq_map, List.map_cons, List.map_map]
  refine congrArg₂ _ (by simp) ?_
  apply List.map_congr_left
  intro i _
  simp only [Function.comp_apply]
  push_cast
  ring

theorem mem_intRange {a b c : ℤ} : c ∈ intRange a b ↔ a ≤ c ∧ c ≤ b := by
  unfold intRange
  simp only [List.mem_map, List.mem_range]
  constructor
  · rintro ⟨i, hi, rfl⟩
    omega
  · rintro ⟨h1, h2⟩
    exact ⟨(c - a).toNat, by omega, by omega⟩

/-- The `NeighborsIterator` state of
`uncore/src/components/board/boardposition.rs` lines 204–212. -/
structure NeighborsIterator where
  current_x : ℤ
  current_y : ℤ
  min_x : ℤ
  max_x : ℤ
  max_y : ℤ
  z : ℤ
deriving DecidableEq, Repr

/-- `NeighborsIterator::new` (boardposition.rs lines 214–235). -/
def NeighborsIterator.new (center : BoardPosition) (max_distance : ℤ)
    (lo hi : ℤ × ℤ) : NeighborsIterator :=
  let min_x := max (center.x - max_distance) lo.1
  let min_y := max (center.y - max_distance) lo.2
  let max_x := min (center.x + max_distance) hi.1
  let max_y := min (center.y + max_distance) hi.2
  ⟨min_x, min_y, min_x, max_x, max_y, center.z⟩

/-- `Iterator::next` for `NeighborsIterator` (boardposition.rs lines 237–259):
emit `(current_x, current_y)`, advance `x`, wrap to `(min_x, current_y + 1)`
when `current_x` passes `max_x`. -/
def NeighborsIterator.next (s : NeighborsIterator) :
    Option (BoardPosition × NeighborsIterator) :=
  if s.max_y < s.current_y then none
  else
    let result : BoardPosition := ⟨s.current_x, s.current_y, s.z⟩
    let cx := s.current_x + 1
    if s.max_x < cx then
      some (result, { s with current_x := s.min_x, current_y := s.current_y + 1 })
    else
      some (result, { s with current_x := cx })

/-- Collect up to `fuel` elements of the iterator. -/
def NeighborsIterator.takeList : ℕ → NeighborsIterator → List BoardPosition
  | 0, _ => []
  | fuel + 1, s =>
    match s.next with
    | none => []
    | some (p, s') => p :: takeList fuel s'

/-- Exact number of elements the iterator will yield from a given state. -/
def NeighborsIterator.count (s : NeighborsIterator) : ℕ :=
  if s.max_y < s.current_y then 0
  else (if s.current_x ≤ s.max_x then (s.max_x - s.current_x + 1).toNat else 1) +
    (s.max_y - s.current_y).toNat *
      (if s.min_x ≤ s.max_x then (s.max_x - s.min_x + 1).toNat else 1)

/-- The complete output stream of the iterator. -/
def NeighborsIterator.toList (s : NeighborsIterator) : List BoardPosition :=
  s.takeList s.count

/-- The tiles of the rectangle `[x1,x2] × [y1,y2]` at height `z`, written in
row-major order with `x` varying fastest — the order the claim asserts. -/
def rowMajorRect (x1 x2 y1 y2 z : ℤ) : List BoardPosition :=
  (intRange y1 y2).flatMap fun y => (intRange x1 x2).map fun x => ⟨x, y, z⟩

/-- `_xy_neighbors_buf` (boardposition.rs lines 89–102): `out.clear()` then
nested `for x in -dist..=dist { for y in -dist..=dist { out.push(...) } }` —
no clamping of any kind. -/
def xy_neighbors_buf (c : BoardPosition) (dist : ℕ) : List BoardPosition :=
  (intRange (-(dist : ℤ)) (dist : ℤ)).flatMap fun x =>
    (intRange (-(dist : ℤ)) (dist : ℤ)).map fun y => ⟨c.x + x, c.y + y, c.z⟩

/-- `iter_xy_neighbors` (boardposition.rs lines 131–141): iterate over the
square clamped to `(0,0)..(map_size - 1)` with saturating subtraction. -/
def iter_xy_neighbors (c : BoardPosition) (dist : ℤ) (map_size : ℕ × ℕ) :
    NeighborsIterator :=
  NeighborsIterator.new c dist (0, 0)
    (((map_size.1 - 1 : ℕ) : ℤ), ((map_size.2 - 1 : ℕ) : ℤ))

theorem takeList_stop (s : NeighborsIterator) (hy : s.max_y < s.current_y) :
    ∀ fuel, s.takeList fuel = [] := by
  intro fuel
  cases fuel with
  | zero => rfl
  | succ fuel =>
    rw [NeighborsIterator.takeList, NeighborsIterator.next, if_pos hy]

theorem takeList_char : ∀ (fuel : ℕ) (s : NeighborsIterator),
    s.min_x ≤ s.current_x → s.current_x ≤ s.max_x → s.current_y ≤ s.max_y →
    s.count ≤ fuel →
    s.takeList fuel =
      ((intRange s.current_x s.max_x).map fun x => ⟨x, s.current_y, s.z⟩) ++
        rowMajorRect s.min_x s.max_x (s.current_y + 1) s.max_y s.z := by
  intro fuel
  induction fuel with
  | zero =>
    intro s h1 h2 hy hc
    simp only [NeighborsIterator.count, if_neg (show ¬ s.max_y < s.current_y by omega),
      if_pos h2] at hc
    omega
  | succ fuel ih =>
    intro s h1 h2 hy hc
    simp only [NeighborsIterator.count, if_neg (show ¬ s.max_y < s.current_y by omega),
      if_pos h2] at hc
    rw [NeighborsIterator.takeList, NeighborsIterator.next,
      if_neg (show ¬ s.max_y < s.current_y by omega)]
    dsimp only
    by_cases hwrap : s.max_x < s.current_x + 1
    · rw [if_pos hwrap]
      dsimp only
      have hcx : s.current_x = s.max_x := by omega
      have hrow : (intRange s.current_x s.max_x).map
          (fun x => (⟨x, s.current_y, s.z⟩ : BoardPosition)) =
          [⟨s.current_x, s.current_y, s.z⟩] := by
        rw [intRange_cons (by omega), intRange_eq_nil (by omega)]
        rfl
      rw [hrow]
      by_cases hy2 : s.max_y < s.current_y + 1
      · rw [takeList_stop ⟨s.min_x, s.current_y + 1, s.min_x, s.max_x, s.max_y, s.z⟩ hy2 fuel,
          rowMajorRect, intRange_eq_nil (by omega)]
        rfl
      · have hcnt : NeighborsIterator.count
            ⟨s.min_x, s.current_y + 1, s.min_x, s.max_x, s.max_y, s.z⟩ ≤ fuel := by
          simp only [NeighborsIterator.count, if_neg hy2, if_pos (h1.trans h2)]
          have hR : (s.max_y - s.current_y).toNat
              = (s.max_y - (s.current_y + 1)).toNat + 1 := by omega
          rw [hR, Nat.succ_mul] at hc
          rw [if_pos (h1.trans h2)] at hc
          omega
        rw [ih ⟨s.min_x, s.current_y + 1, s.min_x, s.max_x, s.max_y, s.z⟩
          (le_refl _) (h1.trans h2) (le_of_not_lt hy2) hcnt]
        rw [show rowMajorRect s.min_x s.max_x (s.current_y + 1) s.max_y s.z =
            ((intRange s.min_x s.max_x).map fun x => ⟨x, s.current_y + 1, s.z⟩) ++
              rowMajorRect s.min_x s.max_x (s.current_y + 1 + 1) s.max_y s.z by
          rw [rowMajorRect, rowMajorRect, intRange_cons (by omega), List.flatMap_cons]]
        rfl
    · rw [if_neg hwrap]
      dsimp only
      have hcnt : NeighborsIterator.count
          ⟨s.current_x + 1, s.current_y, s.min_x, s.max_x, s.max_y, s.z⟩ ≤ fuel := by
        simp only [NeighborsIterator.count, if_neg (show ¬ s.max_y < s.current_y by omega),
          if_pos (show s.current_x + 1 ≤ s.max_x by omega)]
        omega
      rw [ih ⟨s.current_x + 1, s.current_y, s.min_x, s.max_x, s.max_y, s.z⟩
        (show s.min_x ≤ s.current_x + 1 by omega)
        (show s.current_x + 1 ≤ s.max_x by omega) hy hcnt]
      rw [intRange_cons h2, List.map_cons]
      rfl

theorem rowMajorRect_cons {x1 x2 y1 y2 : ℤ} (z : ℤ) (h : y1 ≤ y2) :
    rowMajorRect x1 x2 y1 y2 z =
      ((intRange x1 x2).map fun x => ⟨x, y1, z⟩) ++ rowMajorRect x1 x2 (y1 + 1) y2 z := by
  rw [rowMajorRect, rowMajorRect, intRange_cons h, List.flatMap_cons]

theorem new_min_x (c : BoardPosition) (d : ℤ) (lo hi : ℤ × ℤ) :
    (NeighborsIterator.new c d lo hi).min_x = max (c.x - d) lo.1 := rfl

theorem new_current_x (c : BoardPosition) (d : ℤ) (lo hi : ℤ × ℤ) :
    (NeighborsIterator.new c d lo hi).current_x = max (c.x - d) lo.1 := rfl

theorem new_current_y (c : BoardPosition) (d : ℤ) (lo hi : ℤ × ℤ) :
    (NeighborsIterator.new c d lo hi).current_y = max (c.y - d) lo.2 := rfl

theorem new_max_x (c : BoardPosition) (d : ℤ) (lo hi : ℤ × ℤ) :
    (NeighborsIterator.new c d lo hi).max_x = min (c.x + d) hi.1 := rfl

theorem new_max_y (c : BoardPosition) (d : ℤ) (lo hi : ℤ × ℤ) :
    (NeighborsIterator.new c d lo hi).max_y = min (c.y + d) hi.2 := rfl

theorem new_z (c : BoardPosition) (d : ℤ) (lo hi : ℤ × ℤ) :
    (NeighborsIterator.new c d lo hi).z = c.z := rfl

/-- Full enumeration of the iterator from its initial state, provided the
clamped x-range is nonempty. -/
theorem new_toList (center : BoardPosition) (d : ℤ) (lo hi : ℤ × ℤ)
    (h : max (center.x - d) lo.1 ≤ min (center.x + d) hi.1) :
    (NeighborsIterator.new center d lo hi).toList =
      rowMajorRect (max (center.x - d) lo.1) (min (center.x + d) hi.1)
        (max (center.y - d) lo.2) (min (center.y + d) hi.2) center.z := by
  by_cases hy : min (center.y + d) hi.2 < max (center.y - d) lo.2
  · rw [NeighborsIterator.toList,
      show (NeighborsIterator.new center d lo hi).count = 0 by
        simp only [NeighborsIterator.count, new_max_y, new_current_y, if_pos hy],
      rowMajorRect, intRange_eq_nil hy, List.flatMap_nil]
    rfl
  · rw [NeighborsIterator.toList,
      takeList_char _ _ (le_refl _)
        (by rw [new_current_x, new_max_x]; exact h)
        (by rw [new_current_y, new_max_y]; exact le_of_not_lt hy) (le_refl _),
      new_current_x, new_current_y, new_min_x, new_max_x, new_max_y, new_z,
      rowMajorRect_cons center.z (le_of_not_lt hy)]

theorem mem_rowMajorRect {x1 x2 y1 y2 z : ℤ} {p : BoardPosition} :
    p ∈ rowMajorRect x1 x2 y1 y2 z ↔
      x1 ≤ p.x ∧ p.x ≤ x2 ∧ y1 ≤ p.y ∧ p.y ≤ y2 ∧ p.z = z := by
  unfold rowMajorRect
  constructor
  · intro h
    obtain ⟨y, hy, h⟩ := List.mem_flatMap.mp h
    obtain ⟨x, hx, he⟩ := List.mem_map.mp h
    rw [mem_intRange] at hy hx
    subst he
    exact ⟨hx.1, hx.2, hy.1, hy.2, rfl⟩
  · rintro ⟨h1, h2, h3, h4, h5⟩
    apply List.mem_flatMap.mpr
    refine ⟨p.y, mem_intRange.mpr ⟨h3, h4⟩, ?_⟩
    apply List.mem_map.mpr
    exact ⟨p.x, mem_intRange.mpr ⟨h1, h2⟩, by cases p; simp_all⟩

theorem intRange_shift (a b k : ℤ) :
    intRange (a + k) (b + k) = (intRange a b).map fun x => x + k := by
  unfold intRange
  rw [List.map_map]
  have h : b + k - (a + k) + 1 = b - a + 1 := by ring
  rw [h]
  apply List.map_congr_left
  intro i _
  simp only [Function.comp_apply]
  ring

theorem flatMap_map_comp {α β γ : Type} (f : α → β) (g : β → List γ) (l : List α) :
    (l.map f).flatMap g = l.flatMap fun a => g (f a) := by
  induction l with
  | nil => rfl
  | cons a l ih => simp only [List.map_cons, List.flatMap_cons, ih]

theorem flatMap_congr_left {α β : Type} {l : List α} {f g : α → List β}
    (h : ∀ a ∈ l, f a = g a) : l.flatMap f = l.flatMap g := by
  induction l with
  | nil => rfl
  | cons a l ih =>
    rw [List.flatMap_cons, List.flatMap_cons, h a (List.mem_cons_self _ _),
      ih fun a ha => h a (List.mem_cons_of_mem _ ha)]

end Unhaunter

namespace Unhaunter

/-- C7 counterexample: for center `(1,1,0)` and radius 1 the buffer-reuse form
`_xy_neighbors_buf` starts `(0,0,0), (0,1,0), ...` — its second element
advances `y`, not `x` — whereas the row-major x-fastest order the claim
asserts (`rowMajorRect 0 2 0 2 0`) starts `(0,0,0), (1,0,0), ...`; the two
enumerations differ. -/
theorem c7_enumeration_order_counterexample :
    (xy_neighbors_buf ⟨1, 1, 0⟩ 1).take 2 = [⟨0, 0, 0⟩, ⟨0, 1, 0⟩] ∧
    (rowMajorRect 0 2 0 2 0).take 2 = [⟨0, 0, 0⟩, ⟨1, 0, 0⟩] ∧
    xy_neighbors_buf ⟨1, 1, 0⟩ 1 ≠ rowMajorRect 0 2 0 2 0 := by
  decide

/-- C7 (amended): the lazy-iterator form does enumerate the clamped square in
row-major order with `x` varying fastest (whenever the clamped x-range is
nonempty, in particular whenever the center is inside the clamp region); the
buffer-reuse form `_xy_neighbors_buf` instead enumerates the unclamped square
in column-major order, `y` varying fastest (`x` outermost). -/
theorem c7_enumeration_order_amended :
    (∀ (center : BoardPosition) (max_distance : ℤ) (lo hi : ℤ × ℤ),
      max (center.x - max_distance) lo.1 ≤ min (center.x + max_distance) hi.1 →
      (NeighborsIterator.new center max_distance lo hi).toList =
        rowMajorRect (max (center.x - max_distance) lo.1)
          (min (center.x + max_distance) hi.1)
          (max (center.y - max_distance) lo.2)
          (min (center.y + max_distance) hi.2) center.z) ∧
    (∀ (c : BoardPosition) (dist : ℕ),
      xy_neighbors_buf c dist =
        (intRange (c.x - (dist : ℤ)) (c.x + (dist : ℤ))).flatMap fun x =>
          (intRange (c.y - (dist : ℤ)) (c.y + (dist : ℤ))).map fun y => ⟨x, y, c.z⟩) := by
  constructor
  · exact fun center d lo hi h => new_toList center d lo hi h
  · intro c dist
    rw [show c.x - (dist : ℤ) = -(dist : ℤ) + c.x by ring,
      show c.x + (dist : ℤ) = (dist : ℤ) + c.x by ring,
      show c.y - (dist : ℤ) = -(dist : ℤ) + c.y by ring,
      show c.y + (dist : ℤ) = (dist : ℤ) + c.y by ring,
      intRange_shift, intRange_shift, flatMap_map_comp, xy_neighbors_buf]
    apply flatMap_congr_left
    intro dx _
    rw [List.map_map]
    apply List.map_congr_left
    intro dy _
    simp only [Function.comp_apply, BoardPosition.mk.injEq, and_true]
    exact ⟨add_comm _ _, add_comm _ _⟩

/-- C7 witness: the iterator's enumeration at a concrete center and radius. -/
theorem c7_enumeration_order_amended_witness :
    (NeighborsIterator.new ⟨1, 1, 0⟩ 1 (0, 0) (2, 2)).toList =
      rowMajorRect (max ((1 : ℤ) - 1) 0) (min ((1 : ℤ) + 1) 2)
        (max ((1 : ℤ) - 1) 0) (min ((1 : ℤ) + 1) 2) 0 :=
  c7_enumeration_order_amended.1 ⟨1, 1, 0⟩ 1 (0, 0) (2, 2) (by decide)

/-- C6 counterexample: the buffer-reuse form `_xy_neighbors_buf` for the
corner tile `(0,0,0)` with radius 5 yields `(-5,-5,0)`, a position with
negative coordinates — it performs no clamping. -/
theorem c6_bounds_safety_counterexample :
    (⟨-5, -5, 0⟩ : BoardPosition) ∈ xy_neighbors_buf ⟨0, 0, 0⟩ 5 ∧
    (⟨-5, -5, 0⟩ : BoardPosition).x < 0 ∧ (⟨-5, -5, 0⟩ : BoardPosition).y < 0 := by
  decide

/-- C6 (amended): the lazy iterator `iter_xy_neighbors` for the corner tile
`(0,0,0)` with radius 5 yields only positions with `x ≥ 0` and `y ≥ 0`, for
every map size (and, being a total function, cannot panic); the unclamped
buffer-reuse form does yield negative coordinates. -/
theorem c6_bounds_safety_amended (map_size : ℕ × ℕ) (p : BoardPosition)
    (hp : p ∈ (iter_xy_neighbors ⟨0, 0, 0⟩ 5 map_size).toList) :
    0 ≤ p.x ∧ 0 ≤ p.y := by
  rw [iter_xy_neighbors, new_toList _ _ _ _ (by dsimp only; omega)] at hp
  obtain ⟨h1, h2, h3, h4, h5⟩ := mem_rowMajorRect.mp hp
  dsimp only at h1 h3
  constructor <;> omega

/-- C6 witness: the corner tile itself is enumerated on a 3×3 map and its
coordinates are non-negative. -/
theorem c6_bounds_safety_amended_witness :
    (0 : ℤ) ≤ (⟨0, 0, 0⟩ : BoardPosition).x ∧ (0 : ℤ) ≤ (⟨0, 0, 0⟩ : BoardPosition).y :=
  c6_bounds_safety_amended (3, 3) ⟨0, 0, 0⟩ (by decide)

end Unhaunter

namespace Unhaunter

/-- One queue element of the runtime BFS floods
(`VecDeque<(BoardPosition, f32, f32, (f32, f32, f32))>` in
`add_dynamic_light_sources` / `propagate_from_wave_edges`):
`(pos, remaining_distance, current_lux, color)`. -/
structure QEntry where
  pos : BoardPosition
  dist : ℚ
  lux : ℚ
  color : ℚ × ℚ × ℚ
deriving DecidableEq

/-- The mutable state of a flood: the working light field (`lfs`, restricted
to the `lux`/`color` components the floods touch) and the `visited` array. -/
structure FloodState where
  lux : BoardPosition → ℚ
  color : BoardPosition → ℚ × ℚ × ℚ
  visited : BoardPosition → Bool

/-- The four propagation directions, in source order
(`unlight/src/utils.rs` line 308 / 410). -/
def directions : List (ℤ × ℤ × ℤ) := [(0, 1, 0), (1, 0, 0), (0, -1, 0), (-1, 0, 0)]

/-- The neighbor `(pos.x + dx, pos.y + dy, pos.z + dz)` probed by one loop
iteration. -/
def dirNeighbor (pos : BoardPosition) (d : ℤ × ℤ × ℤ) : BoardPosition :=
  ⟨pos.x + d.1, pos.y + d.2.1, pos.z + d.2.2⟩

/-- The body of the `for &(dx, dy, dz) in &directions` loop shared by
`add_dynamic_light_sources` (utils.rs lines 337–392) and
`propagate_from_wave_edges` (lines 425–480): skip when out of bounds, already
visited, or not see-through; attenuate by 0.75; skip when dimmer than 0.001;
otherwise accumulate lux, blend color, push with budget minus one, and mark
visited. -/
def stepNeighbor (ms : MapSize) (seeThrough : BoardPosition → Bool) (e : QEntry)
    (acc : FloodState × List QEntry) (d : ℤ × ℤ × ℤ) : FloodState × List QEntry :=
  let st := acc.1
  let n := dirNeighbor e.pos d
  if ¬ (is_in_bounds (n.x, n.y, n.z) ms = true) then acc
  else if st.visited n = true then acc
  else if ¬ (seeThrough n = true) then acc
  else
    let falloff : ℚ := 3 / 4
    let new_lux := e.lux * falloff
    if new_lux < 1 / 1000 then acc
    else
      let lux' : BoardPosition → ℚ :=
        fun q => if q = n then st.lux q + new_lux else st.lux q
      let color' : BoardPosition → ℚ × ℚ × ℚ := fun q =>
        if q = n then
          if 0 < lux' n then blend_colors (st.color n) (lux' n - new_lux) e.color new_lux
          else e.color
        else st.color q
      let visited' : BoardPosition → Bool :=
        fun q => if q = n then true else st.visited q
      (⟨lux', color', visited'⟩, acc.2 ++ [⟨n, e.dist - 1, new_lux, e.color⟩])

/-- Processing one popped queue entry: the fold of `stepNeighbor` over the
four directions, returning the updated state and the entries pushed. -/
def expandEntry (ms : MapSize) (seeThrough : BoardPosition → Bool) (e : QEntry)
    (st : FloodState) : FloodState × List QEntry :=
  directions.foldl (stepNeighbor ms seeThrough e) (st, [])

/-- The shared BFS loop (`while let Some(...) = queue.pop_front()`): a popped
entry is dropped when its remaining distance is ≤ 0 or its lux is below 0.001;
otherwise its neighbors are processed and the pushes appended to the queue.
`fuel` bounds the number of loop iterations; every caller passes enough fuel
for the loop to run to completion (see `floodAux_fuel_irrelevant`). -/
def floodAux (ms : MapSize) (seeThrough : BoardPosition → Bool) :
    ℕ → List QEntry → FloodState → FloodState
  | 0, _, st => st
  | _ + 1, [], st => st
  | fuel + 1, e :: rest, st =>
    if e.dist ≤ 0 ∨ e.lux < 1 / 1000 then floodAux ms seeThrough fuel rest st
    else
      floodAux ms seeThrough fuel (rest ++ (expandEntry ms seeThrough e st).2)
        (expandEntry ms seeThrough e st).1

/-- A dynamic light source
(`(BoardPosition, f32, (f32, f32, f32), f32)` = position, lux, color,
maximum propagation distance). -/
structure DynLight where
  pos : BoardPosition
  lux : ℚ
  color : ℚ × ℚ × ℚ
  distance : ℚ
deriving DecidableEq

/-- Seeding loop of `add_dynamic_light_sources` (utils.rs lines 311–325):
add the source lux into the field, blend its color, push it onto the queue
and mark it visited. -/
def seedDynLight (acc : FloodState × List QEntry) (dl : DynLight) :
    FloodState × List QEntry :=
  let st := acc.1
  let lux' : BoardPosition → ℚ :=
    fun q => if q = dl.pos then st.lux q + dl.lux else st.lux q
  let color' : BoardPosition → ℚ × ℚ × ℚ := fun q =>
    if q = dl.pos then
      if 0 < lux' dl.pos then
        blend_colors (st.color dl.pos) (lux' dl.pos - dl.lux) dl.color dl.lux
      else dl.color
    else st.color q
  let visited' : BoardPosition → Bool :=
    fun q => if q = dl.pos then true else st.visited q
  (⟨lux', color', visited'⟩, acc.2 ++ [⟨dl.pos, dl.distance, dl.lux, dl.color⟩])

/-- Enough fuel for any flood on this board: the loop measure
`2·(unvisited tiles) + queue length` never exceeds this (each iteration
strictly decreases it). -/
def floodFuel (ms : MapSize) (q : List QEntry) : ℕ := 2 * volume ms + q.length

/-- `add_dynamic_light_sources` (utils.rs lines 299–397): seed every dynamic
light (marking it visited), then run the BFS flood. The input light field is
given by its lux and color components; `visited` starts all-false. -/
def add_dynamic_light_sources (ms : MapSize) (seeThrough : BoardPosition → Bool)
    (lux0 : BoardPosition → ℚ) (color0 : BoardPosition → ℚ × ℚ × ℚ)
    (dynamic_lights : List DynLight) : FloodState :=
  let init := dynamic_lights.foldl seedDynLight
    (⟨lux0, color0, fun _ => false⟩, ([] : List QEntry))
  floodAux ms seeThrough (floodFuel ms init.2) init.2 init.1

/-- `propagate_from_wave_edges` (utils.rs lines 400–484): queue every wave
edge (without seeding the field or marking it visited) and run the same BFS
flood over the given state. -/
def propagate_from_wave_edges (ms : MapSize) (seeThrough : BoardPosition → Bool)
    (st : FloodState) (wave_edges : List WaveEdge) : FloodState :=
  let q := wave_edges.map fun w =>
    (⟨w.pos, w.remaining_distance, w.lux, w.color⟩ : QEntry)
  floodAux ms seeThrough (floodFuel ms q) q st

end Unhaunter

namespace Unhaunter

/-- All the facts one neighbor-expansion fold establishes: soundness of every
pushed entry, exactness of the state update, and completeness (every
in-bounds, unvisited, see-through, bright-enough neighbor is pushed). -/
structure StepFacts (ms : MapSize) (seeThrough : BoardPosition → Bool) (e : QEntry)
    (st : FloodState) (ds : List (ℤ × ℤ × ℤ)) (st' : FloodState)
    (new : List QEntry) : Prop where
  mem_dir : ∀ q ∈ new, ∃ d ∈ ds, q.pos = dirNeighbor e.pos d
  entry_shape : ∀ q ∈ new, q.dist = e.dist - 1 ∧ q.lux = e.lux * (3 / 4) ∧ q.color = e.color
  entry_inb : ∀ q ∈ new, inBounds q.pos ms = true
  entry_seeth : ∀ q ∈ new, seeThrough q.pos = true
  entry_unvisited : ∀ q ∈ new, st.visited q.pos = false
  entry_bright : new ≠ [] → ¬ (e.lux * (3 / 4) < 1 / 1000)
  nodup : (new.map QEntry.pos).Nodup
  visited_iff : ∀ p, st'.visited p = true ↔ (st.visited p = true ∨ p ∈ new.map QEntry.pos)
  lux_untouched : ∀ p, p ∉ new.map QEntry.pos → st'.lux p = st.lux p
  lux_add : ∀ p, p ∈ new.map QEntry.pos → st'.lux p = st.lux p + e.lux * (3 / 4)
  complete : ∀ d ∈ ds, inBounds (dirNeighbor e.pos d) ms = true →
    st.visited (dirNeighbor e.pos d) = false → seeThrough (dirNeighbor e.pos d) = true →
    ¬ (e.lux * (3 / 4) < 1 / 1000) → dirNeighbor e.pos d ∈ new.map QEntry.pos

theorem stepNeighbor_fold_spec (ms : MapSize) (seeThrough : BoardPosition → Bool)
    (e : QEntry) :
    ∀ (ds : List (ℤ × ℤ × ℤ)) (st : FloodState) (acc2 : List QEntry),
    ∃ new, (ds.foldl (stepNeighbor ms seeThrough e) (st, acc2)).2 = acc2 ++ new ∧
      StepFacts ms seeThrough e st ds
        (ds.foldl (stepNeighbor ms seeThrough e) (st, acc2)).1 new := by
  intro ds
  induction ds with
  | nil =>
    intro st acc2
    refine ⟨[], by simp, ?_⟩
    constructor <;> simp
  | cons d ds ih =>
    intro st acc2
    rw [List.foldl_cons]
    set n0 := dirNeighbor e.pos d with hn0
    by_cases h1 : is_in_bounds (n0.x, n0.y, n0.z) ms = true
    case neg =>
      have hstep : stepNeighbor ms seeThrough e (st, acc2) d = (st, acc2) := by
        unfold stepNeighbor
        rw [if_pos (by exact h1)]
      rw [hstep]
      obtain ⟨new, hacc, hf⟩ := ih st acc2
      refine ⟨new, hacc, ?_⟩
      exact {
        mem_dir := fun q hq => by
          obtain ⟨d', hd', he'⟩ := hf.mem_dir q hq
          exact ⟨d', List.mem_cons_of_mem _ hd', he'⟩
        entry_shape := hf.entry_shape
        entry_inb := hf.entry_inb
        entry_seeth := hf.entry_seeth
        entry_unvisited := hf.entry_unvisited
        entry_bright := hf.entry_bright
        nodup := hf.nodup
        visited_iff := hf.visited_iff
        lux_untouched := hf.lux_untouched
        lux_add := hf.lux_add
        complete := fun d' hd' hb hv hs hl => by
          rcases List.mem_cons.mp hd' with rfl | hd'
          · exact absurd (by exact hb) h1
          · exact hf.complete d' hd' hb hv hs hl }
    case pos =>
      by_cases h2 : st.visited n0 = true
      case pos =>
        have hstep : stepNeighbor ms seeThrough e (st, acc2) d = (st, acc2) := by
          unfold stepNeighbor
          rw [if_neg (by rw [not_not]; exact h1), if_pos (by exact h2)]
        rw [hstep]
        obtain ⟨new, hacc, hf⟩ := ih st acc2
        refine ⟨new, hacc, ?_⟩
        exact {
          mem_dir := fun q hq => by
            obtain ⟨d', hd', he'⟩ := hf.mem_dir q hq
            exact ⟨d', List.mem_cons_of_mem _ hd', he'⟩
          entry_shape := hf.entry_shape
          entry_inb := hf.entry_inb
          entry_seeth := hf.entry_seeth
          entry_unvisited := hf.entry_unvisited
          entry_bright := hf.entry_bright
          nodup := hf.nodup
          visited_iff := hf.visited_iff
          lux_untouched := hf.lux_untouched
          lux_add := hf.lux_add
          complete := fun d' hd' hb hv hs hl => by
            rcases List.mem_cons.mp hd' with rfl | hd'
            · rw [hv] at h2; cases h2
            · exact hf.complete d' hd' hb hv hs hl }
      case neg =>
        by_cases h3 : seeThrough n0 = true
        case neg =>
          have hstep : stepNeighbor ms seeThrough e (st, acc2) d = (st, acc2) := by
            unfold stepNeighbor
            rw [if_neg (by rw [not_not]; exact h1), if_neg (by exact h2),
              if_pos (by exact h3)]
          rw [hstep]
          obtain ⟨new, hacc, hf⟩ := ih st acc2
          refine ⟨new, hacc, ?_⟩
          exact {
            mem_dir := fun q hq => by
              obtain ⟨d', hd', he'⟩ := hf.mem_dir q hq
              exact ⟨d', List.mem_cons_of_mem _ hd', he'⟩
            entry_shape := hf.entry_shape
            entry_inb := hf.entry_inb
            entry_seeth := hf.entry_seeth
            entry_unvisited := hf.entry_unvisited
            entry_bright := hf.entry_bright
            nodup := hf.nodup
            visited_iff := hf.visited_iff
            lux_untouched := hf.lux_untouched
            lux_add := hf.lux_add
            complete := fun d' hd' hb hv hs hl => by
              rcases List.mem_cons.mp hd' with rfl | hd'
              · exact absurd (by exact hs) h3
              · exact hf.complete d' hd' hb hv hs hl }
        case pos =>
          by_cases h4 : e.lux * (3 / 4) < 1 / 1000
          case pos =>
            have hstep : stepNeighbor ms seeThrough e (st, acc2) d = (st, acc2) := by
              unfold stepNeighbor
              rw [if_neg (by rw [not_not]; exact h1), if_neg (by exact h2),
                if_neg (by rw [not_not]; exact h3), if_pos (by exact h4)]
            rw [hstep]
            obtain ⟨new, hacc, hf⟩ := ih st acc2
            refine ⟨new, hacc, ?_⟩
            exact {
              mem_dir := fun q hq => by
                obtain ⟨d', hd', he'⟩ := hf.mem_dir q hq
                exact ⟨d', List.mem_cons_of_mem _ hd', he'⟩
              entry_shape := hf.entry_shape
              entry_inb := hf.entry_inb
              entry_seeth := hf.entry_seeth
              entry_unvisited := hf.entry_unvisited
              entry_bright := hf.entry_bright
              nodup := hf.nodup
              visited_iff := hf.visited_iff
              lux_untouched := hf.lux_untouched
              lux_add := hf.lux_add
              complete := fun d' hd' hb hv hs hl => by
                rcases List.mem_cons.mp hd' with rfl | hd'
                · exact absurd h4 hl
                · exact hf.complete d' hd' hb hv hs hl }
          case neg =>
            -- the write case: the neighbor is lit, pushed and marked visited
            set q0 : QEntry := ⟨n0, e.dist - 1, e.lux * (3 / 4), e.color⟩ with hq0
            set st1 : FloodState :=
              ⟨fun q => if q = n0 then st.lux q + e.lux * (3 / 4) else st.lux q,
               fun q => if q = n0 then
                  (if 0 < (if n0 = n0 then st.lux n0 + e.lux * (3 / 4) else st.lux n0) then
                    blend_colors (st.color n0)
                      ((if n0 = n0 then st.lux n0 + e.lux * (3 / 4) else st.lux n0)
                        - e.lux * (3 / 4)) e.color (e.lux * (3 / 4))
                  else e.color)
                else st.color q,
               fun q => if q = n0 then true else st.visited q⟩ with hst1
            have hstep : stepNeighbor ms seeThrough e (st, acc2) d =
                (st1, acc2 ++ [q0]) := by
              unfold stepNeighbor
              rw [if_neg (by rw [not_not]; exact h1), if_neg (by exact h2),
                if_neg (by rw [not_not]; exact h3), if_neg (by exact h4)]
            rw [hstep]
            obtain ⟨new, hacc, hf⟩ := ih st1 (acc2 ++ [q0])
            have hvis1 : ∀ p, st1.visited p = true ↔ (st.visited p = true ∨ p = n0) := by
              intro p
              rw [hst1]
              dsimp only
              by_cases hp : p = n0
              · simp [hp]
              · simp [hp]
            have hnew_ne : ∀ q ∈ new, q.pos ≠ n0 := by
              intro q hq he
              have := hf.entry_unvisited q hq
              rw [he] at this
              rw [(hvis1 n0).mpr (Or.inr rfl)] at this
              cases this
            have hlux1 : ∀ p, p ≠ n0 → st1.lux p = st.lux p := by
              intro p hp
              rw [hst1]
              dsimp only
              rw [if_neg hp]
            refine ⟨q0 :: new, by rw [hacc, List.append_assoc]; rfl, ?_⟩
            exact {
              mem_dir := fun q hq => by
                rcases List.mem_cons.mp hq with rfl | hq
                · exact ⟨d, List.mem_cons_self _ _, rfl⟩
                · obtain ⟨d', hd', he'⟩ := hf.mem_dir q hq
                  exact ⟨d', List.mem_cons_of_mem _ hd', he'⟩
              entry_shape := fun q hq => by
                rcases List.mem_cons.mp hq with rfl | hq
                · exact ⟨rfl, rfl, rfl⟩
                · exact hf.entry_shape q hq
              entry_inb := fun q hq => by
                rcases List.mem_cons.mp hq with rfl | hq
                · exact h1
                · exact hf.entry_inb q hq
              entry_seeth := fun q hq => by
                rcases List.mem_cons.mp hq with rfl | hq
                · exact h3
                · exact hf.entry_seeth q hq
              entry_unvisited := fun q hq => by
                rcases List.mem_cons.mp hq with rfl | hq
                · exact Bool.eq_false_iff.mpr h2
                · have hu := hf.entry_unvisited q hq
                  have hne := hnew_ne q hq
                  rw [hst1] at hu
                  dsimp only at hu
                  rw [if_neg hne] at hu
                  exact hu
              entry_bright := fun _ => h4
              nodup := by
                rw [List.map_cons, List.nodup_cons]
                exact ⟨fun hmem => by
                  obtain ⟨q, hq, he⟩ := List.mem_map.mp hmem
                  exact hnew_ne q hq he, hf.nodup⟩
              visited_iff := fun p => by
                rw [hf.visited_iff p, hvis1 p, List.map_cons]
                constructor
                · rintro ((h | h) | h)
                  · exact Or.inl h
                  · exact Or.inr (by rw [h]; exact List.mem_cons_self _ _)
                  · exact Or.inr (List.mem_cons_of_mem _ h)
                · rintro (h | h)
                  · exact Or.inl (Or.inl h)
                  · rcases List.mem_cons.mp h with rfl | h
                    · exact Or.inl (Or.inr rfl)
                    · exact Or.inr h
              lux_untouched := fun p hp => by
                rw [List.map_cons] at hp
                have hp0 : p ≠ n0 := fun he => hp (he ▸ List.mem_cons_self _ _)
                have hpn : p ∉ new.map QEntry.pos := fun h => hp (List.mem_cons_of_mem _ h)
                rw [hf.lux_untouched p hpn, hlux1 p hp0]
              lux_add := fun p hp => by
                rw [List.map_cons] at hp
                rcases List.mem_cons.mp hp with rfl | hp
                · have hpn : q0.pos ∉ new.map QEntry.pos := fun h => by
                    obtain ⟨q, hq, he⟩ := List.mem_map.mp h
                    exact hnew_ne q hq he
                  rw [hf.lux_untouched _ hpn, hst1]
                  dsimp only
                  rw [if_pos rfl]
                · have hp0 : p ≠ n0 := fun he => by
                    obtain ⟨q, hq, he'⟩ := List.mem_map.mp hp
                    exact hnew_ne q hq (he'.trans he)
                  rw [hf.lux_add p hp, hlux1 p hp0]
              complete := fun d' hd' hb hv hs hl => by
                rw [List.map_cons]
                rcases List.mem_cons.mp hd' with rfl | hd'
                · exact List.mem_cons_self _ _
                · by_cases he : dirNeighbor e.pos d' = n0
                  · rw [he]; exact List.mem_cons_self _ _
                  · refine List.mem_cons_of_mem _ ?_
                    refine hf.complete d' hd' hb ?_ hs hl
                    rw [hst1]
                    dsimp only
                    rw [if_neg he]
                    exact hv }

/-- `expandEntry` satisfies the step facts over the four directions. -/
theorem expandEntry_spec (ms : MapSize) (seeThrough : BoardPosition → Bool)
    (e : QEntry) (st : FloodState) :
    ∃ new, (expandEntry ms seeThrough e st).2 = new ∧
      StepFacts ms seeThrough e st directions (expandEntry ms seeThrough e st).1 new := by
  obtain ⟨new, hacc, hf⟩ := stepNeighbor_fold_spec ms seeThrough e directions st []
  exact ⟨new, by rw [expandEntry, hacc, List.nil_append], hf⟩

end Unhaunter

namespace Unhaunter

/-- The in-bounds tiles as a finite set. -/
def boardFinset (ms : MapSize) : Finset BoardPosition := (allPositions ms).toFinset

theorem mem_boardFinset {p : BoardPosition} {ms : MapSize} :
    p ∈ boardFinset ms ↔ inBounds p ms = true := by
  rw [boardFinset, List.mem_toFinset, mem_allPositions]

theorem length_flatMap_const {α β : Type} (l : List α) (f : α → List β) (c : ℕ)
    (h : ∀ a ∈ l, (f a).length = c) : (l.flatMap f).length = l.length * c := by
  induction l with
  | nil => simp
  | cons a l ih =>
    rw [List.flatMap_cons, List.length_append, h a (List.mem_cons_self _ _),
      ih fun a ha => h a (List.mem_cons_of_mem _ ha), List.length_cons]
    ring

theorem length_allPositions (ms : MapSize) : (allPositions ms).length = volume ms := by
  rw [allPositions, volume]
  rw [length_flatMap_const _ _ (ms.2.1 * ms.2.2) ?h, List.length_range]
  case h =>
    intro i _
    rw [length_flatMap_const _ _ ms.2.2 ?h2, List.length_range]
    case h2 =>
      intro j _
      rw [List.length_map, List.length_range]
  ring

theorem boardFinset_card_le (ms : MapSize) : (boardFinset ms).card ≤ volume ms := by
  rw [boardFinset, ← length_allPositions ms]
  exact (allPositions ms).toFinset_card_le

/-- Number of in-bounds tiles not yet visited. -/
def unvisitedCount (ms : MapSize) (st : FloodState) : ℕ :=
  ((boardFinset ms).filter fun p => st.visited p = false).card

/-- The loop measure of the BFS: strictly decreases at every iteration. -/
def floodMeasure (ms : MapSize) (q : List QEntry) (st : FloodState) : ℕ :=
  2 * unvisitedCount ms st + q.length

theorem unvisitedCount_le (ms : MapSize) (st : FloodState) :
    unvisitedCount ms st ≤ volume ms :=
  le_trans (Finset.card_filter_le _ _) (boardFinset_card_le ms)

theorem unvisitedCount_expand (ms : MapSize) {st st' : FloodState} {new : List QEntry}
    (hvis : ∀ p, st'.visited p = true ↔ (st.visited p = true ∨ p ∈ new.map QEntry.pos))
    (hinb : ∀ q ∈ new, inBounds q.pos ms = true)
    (hunv : ∀ q ∈ new, st.visited q.pos = false)
    (hnd : (new.map QEntry.pos).Nodup) :
    unvisitedCount ms st' + new.length = unvisitedCount ms st := by
  have hScard : (new.map QEntry.pos).toFinset.card = new.length := by
    rw [List.toFinset_card_of_nodup hnd, List.length_map]
  have hfilter : (boardFinset ms).filter (fun p => st'.visited p = false) =
      ((boardFinset ms).filter fun p => st.visited p = false) \
        (new.map QEntry.pos).toFinset := by
    ext p
    simp only [Finset.mem_filter, Finset.mem_sdiff, List.mem_toFinset]
    constructor
    · rintro ⟨hb, hv⟩
      have hnor : ¬ (st.visited p = true ∨ p ∈ new.map QEntry.pos) := fun h => by
        rw [(hvis p).mpr h] at hv
        cases hv
      push_neg at hnor
      exact ⟨⟨hb, Bool.not_eq_true _ ▸ hnor.1⟩, hnor.2⟩
    · rintro ⟨⟨hb, hv⟩, hns⟩
      refine ⟨hb, ?_⟩
      have : ¬ st'.visited p = true := fun h => by
        rcases (hvis p).mp h with h' | h'
        · rw [h'] at hv; cases hv
        · exact hns h'
      exact Bool.not_eq_true _ ▸ this
  have hsub : (new.map QEntry.pos).toFinset ⊆
      (boardFinset ms).filter fun p => st.visited p = false := by
    intro p hp
    obtain ⟨q, hq, he⟩ := List.mem_map.mp (List.mem_toFinset.mp hp)
    subst he
    exact Finset.mem_filter.mpr ⟨mem_boardFinset.mpr (hinb q hq), hunv q hq⟩
  have hle := Finset.card_le_card hsub
  rw [unvisitedCount, unvisitedCount, hfilter, Finset.card_sdiff hsub, hScard]
  omega

theorem floodAux_fuel_succ (ms : MapSize) (seeThrough : BoardPosition → Bool) :
    ∀ (fuel : ℕ) (q : List QEntry) (st : FloodState),
    floodMeasure ms q st ≤ fuel →
    floodAux ms seeThrough (fuel + 1) q st = floodAux ms seeThrough fuel q st := by
  intro fuel
  induction fuel with
  | zero =>
    intro q st h
    cases q with
    | nil => rfl
    | cons e rest =>
      rw [floodMeasure, List.length_cons] at h
      omega
  | succ fuel ih =>
    intro q st h
    cases q with
    | nil => rfl
    | cons e rest =>
      by_cases hskip : e.dist ≤ 0 ∨ e.lux < 1 / 1000
      · rw [show floodAux ms seeThrough (fuel + 1 + 1) (e :: rest) st
            = floodAux ms seeThrough (fuel + 1) rest st by
              simp only [floodAux, if_pos hskip],
          show floodAux ms seeThrough (fuel + 1) (e :: rest) st
            = floodAux ms seeThrough fuel rest st by
              simp only [floodAux, if_pos hskip]]
        apply ih
        rw [floodMeasure] at h ⊢
        rw [List.length_cons] at h
        omega
      · rw [show floodAux ms seeThrough (fuel + 1 + 1) (e :: rest) st
            = floodAux ms seeThrough (fuel + 1)
                (rest ++ (expandEntry ms seeThrough e st).2)
                (expandEntry ms seeThrough e st).1 by
              simp only [floodAux, if_neg hskip],
          show floodAux ms seeThrough (fuel + 1) (e :: rest) st
            = floodAux ms seeThrough fuel
                (rest ++ (expandEntry ms seeThrough e st).2)
                (expandEntry ms seeThrough e st).1 by
              simp only [floodAux, if_neg hskip]]
        apply ih
        obtain ⟨new, hacc, hf⟩ := expandEntry_spec ms seeThrough e st
        have hcount := unvisitedCount_expand ms hf.visited_iff hf.entry_inb
          hf.entry_unvisited hf.nodup
        simp only [floodMeasure, List.length_cons] at h
        simp only [floodMeasure, List.length_append, hacc]
        omega

/-- The flood result does not depend on the fuel once the fuel dominates the
loop measure: with enough fuel the BFS runs to completion. -/
theorem floodAux_fuel_irrelevant (ms : MapSize) (seeThrough : BoardPosition → Bool) :
    ∀ (f1 f2 : ℕ) (q : List QEntry) (st : FloodState),
    floodMeasure ms q st ≤ f1 → floodMeasure ms q st ≤ f2 →
    floodAux ms seeThrough f1 q st = floodAux ms seeThrough f2 q st := by
  have key : ∀ (k f : ℕ) (q : List QEntry) (st : FloodState),
      floodMeasure ms q st ≤ f →
      floodAux ms seeThrough (f + k) q st = floodAux ms seeThrough f q st := by
    intro k
    induction k with
    | zero => intro f q st _; rfl
    | succ k ih =>
      intro f q st h
      rw [show f + (k + 1) = (f + k) + 1 by omega,
        floodAux_fuel_succ ms seeThrough (f + k) q st (le_trans h (by omega)),
        ih f q st h]
  intro f1 f2 q st h1 h2
  rcases le_total f1 f2 with h | h
  · rw [show f2 = f1 + (f2 - f1) by omega, key (f2 - f1) f1 q st h1]
  · rw [show f1 = f2 + (f1 - f2) by omega, key (f1 - f2) f2 q st h2]

end Unhaunter

namespace Unhaunter

/-- The four axis-aligned in-plane neighbors of a tile, i.e. the tiles the
flood can write `t` from / the tiles a front at `t` can write to. -/
def neighbors4 (t : BoardPosition) : List BoardPosition :=
  directions.map (dirNeighbor t)

/-- 4-adjacency is symmetric: if `t` is the `d`-neighbor of `u` then `u` is a
4-neighbor of `t`. -/
theorem dirNeighbor_symm {d : ℤ × ℤ × ℤ} (hd : d ∈ directions)
    (u t : BoardPosition) (he : t = dirNeighbor u d) : u ∈ neighbors4 t := by
  subst he
  cases u with
  | mk x y z =>
    simp only [directions, List.mem_cons, List.not_mem_nil, or_false] at hd
    rcases hd with rfl | rfl | rfl | rfl <;>
      simp [neighbors4, directions, dirNeighbor, BoardPosition.mk.injEq]

/-- If the four neighbors of `t` are walls and no queue entry sits on a
neighbor of `t`, the flood loop never writes light into `t`. -/
theorem flood_lux_frozen (ms : MapSize) (seeThrough : BoardPosition → Bool)
    (t : BoardPosition) (hwall : ∀ u ∈ neighbors4 t, seeThrough u = false) :
    ∀ (fuel : ℕ) (q : List QEntry) (st : FloodState),
    (∀ e ∈ q, e.pos ∉ neighbors4 t) →
    (floodAux ms seeThrough fuel q st).lux t = st.lux t := by
  intro fuel
  induction fuel with
  | zero => intro q st _; rfl
  | succ fuel ih =>
    intro q st hq
    cases q with
    | nil => rfl
    | cons e rest =>
      by_cases hskip : e.dist ≤ 0 ∨ e.lux < 1 / 1000
      · simp only [floodAux, if_pos hskip]
        exact ih rest st fun e' he' => hq e' (List.mem_cons_of_mem _ he')
      · simp only [floodAux, if_neg hskip]
        obtain ⟨new, hacc, hf⟩ := expandEntry_spec ms seeThrough e st
        rw [hacc]
        rw [ih (rest ++ new) _ ?hinv]
        · apply hf.lux_untouched
          intro hmem
          obtain ⟨q', hq', he'⟩ := List.mem_map.mp hmem
          obtain ⟨d, hd, he2⟩ := hf.mem_dir q' hq'
          exact hq e (List.mem_cons_self _ _)
            (dirNeighbor_symm hd e.pos t (he'.symm.trans he2))
        case hinv =>
          intro e' he'
          rcases List.mem_append.mp he' with h | h
          · exact hq e' (List.mem_cons_of_mem _ h)
          · intro hmem
            have hseeth := hf.entry_seeth e' h
            rw [hwall e'.pos hmem] at hseeth
            cases hseeth

/-- The seeding fold: the queue receives exactly one entry per dynamic light,
and tiles holding no light keep their lux and visited status. -/
theorem seedDynLight_fold_spec :
    ∀ (lights : List DynLight) (st0 : FloodState) (acc : List QEntry),
    (lights.foldl seedDynLight (st0, acc)).2 =
      acc ++ lights.map (fun dl => ⟨dl.pos, dl.distance, dl.lux, dl.color⟩) ∧
    (∀ p, (∀ dl ∈ lights, dl.pos ≠ p) →
      (lights.foldl seedDynLight (st0, acc)).1.lux p = st0.lux p ∧
      (lights.foldl seedDynLight (st0, acc)).1.visited p = st0.visited p) := by
  intro lights
  induction lights with
  | nil => intro st0 acc; exact ⟨by simp, fun p _ => ⟨rfl, rfl⟩⟩
  | cons dl lights ih =>
    intro st0 acc
    rw [List.foldl_cons]
    have hstep : seedDynLight (st0, acc) dl =
        (⟨fun q => if q = dl.pos then st0.lux q + dl.lux else st0.lux q,
          fun q => if q = dl.pos then
            (if 0 < (if dl.pos = dl.pos then st0.lux dl.pos + dl.lux else st0.lux dl.pos) then
              blend_colors (st0.color dl.pos)
                ((if dl.pos = dl.pos then st0.lux dl.pos + dl.lux else st0.lux dl.pos) - dl.lux)
                dl.color dl.lux
            else dl.color)
          else st0.color q,
          fun q => if q = dl.pos then true else st0.visited q⟩,
         acc ++ [⟨dl.pos, dl.distance, dl.lux, dl.color⟩]) := rfl
    rw [hstep]
    obtain ⟨hq, hst⟩ := ih _ (acc ++ [⟨dl.pos, dl.distance, dl.lux, dl.color⟩])
    constructor
    · rw [hq, List.append_assoc]
      rfl
    · intro p hp
      have hne : dl.pos ≠ p := hp dl (List.mem_cons_self _ _)
      have hrest := hst p fun dl' h => hp dl' (List.mem_cons_of_mem _ h)
      refine ⟨hrest.1.trans ?_, hrest.2.trans ?_⟩
      · dsimp only
        rw [if_neg fun h => hne h.symm]
      · dsimp only
        rw [if_neg fun h => hne h.symm]

/-- C3 (amended): a tile `t` whose four axis-aligned in-plane neighbors are
all non-see-through, on which no dynamic source sits, and none of whose four
neighbors holds a dynamic source, keeps its initial lux (zero on a fresh
field) through the dynamic-source flood: no BFS step writes light into it.
(The extra neighbor condition is forced by the code: sources are seeded and
expanded regardless of the see-through flag of their own tile, and occlusion
is checked only at the tile being written, so a source placed on a wall tile
adjacent to `t` still lights `t` in one hop.) -/
theorem c3_occlusion_amended (ms : MapSize) (seeThrough : BoardPosition → Bool)
    (lux0 : BoardPosition → ℚ) (color0 : BoardPosition → ℚ × ℚ × ℚ)
    (lights : List DynLight) (t : BoardPosition)
    (hwall : ∀ u ∈ neighbors4 t, seeThrough u = false)
    (hnotsrc : ∀ dl ∈ lights, dl.pos ≠ t)
    (hnotadj : ∀ dl ∈ lights, dl.pos ∉ neighbors4 t) :
    (add_dynamic_light_sources ms seeThrough lux0 color0 lights).lux t = lux0 t := by
  rw [add_dynamic_light_sources]
  obtain ⟨hq, hst⟩ := seedDynLight_fold_spec lights ⟨lux0, color0, fun _ => false⟩ []
  rw [flood_lux_frozen ms seeThrough t hwall _ _ _ ?hqinv]
  · exact (hst t hnotsrc).1
  case hqinv =>
    intro e he
    rw [hq, List.nil_append] at he
    obtain ⟨dl, hdl, he'⟩ := List.mem_map.mp he
    intro hmem
    apply hnotadj dl hdl
    have : e.pos = dl.pos := by rw [← he']
    rw [← this]
    exact hmem

end Unhaunter

namespace Unhaunter

/-- Collision field of the C3 counterexample board: only the center tile
`(1,1,0)` of a 3×3×1 map is see-through; all other tiles (in particular the
four neighbors of the center) are walls. -/
def c3SeeTh : BoardPosition → Bool := fun p => decide (p = ⟨1, 1, 0⟩)

/-- A dynamic light of intensity 10 sitting on the wall tile `(1,0,0)` — a
4-neighbor of the enclosed center tile, but not the center itself. -/
def c3Lights : List DynLight := [⟨⟨1, 0, 0⟩, 10, (1, 1, 1), 30⟩]

/-- C3 counterexample: the center tile `(1,1,0)` is enclosed by
`see_through = false` tiles on all 4 sides and holds no dynamic source, yet
the dynamic flood assigns it lux `10 · 0.75 = 7.5 ≠ 0`: the source seeded on
the neighboring wall tile expands, and occlusion is only checked at the tile
being written. -/
theorem c3_occlusion_counterexample :
    (∀ u ∈ neighbors4 ⟨1, 1, 0⟩, c3SeeTh u = false) ∧
    (∀ dl ∈ c3Lights, dl.pos ≠ (⟨1, 1, 0⟩ : BoardPosition)) ∧
    (add_dynamic_light_sources (3, 3, 1) c3SeeTh (fun _ => 0) (fun _ => (0, 0, 0))
      c3Lights).lux ⟨1, 1, 0⟩ = 15 / 2 ∧
    (15 / 2 : ℚ) ≠ 0 := by
  refine ⟨by decide, by decide, ?_, by norm_num⟩
  norm_num [add_dynamic_light_sources, floodFuel, volume, seedDynLight, c3Lights,
    floodAux, expandEntry, stepNeighbor, directions, dirNeighbor, is_in_bounds,
    c3SeeTh, blend_colors, BoardPosition.mk.injEq]

/-- C3 witness: with the source moved off the neighbors (corner `(0,0,0)`),
the enclosed center tile keeps lux 0. -/
theorem c3_occlusion_amended_witness :
    (add_dynamic_light_sources (3, 3, 1) c3SeeTh (fun _ => 0) (fun _ => (0, 0, 0))
      [⟨⟨0, 0, 0⟩, 10, (1, 1, 1), 30⟩]).lux ⟨1, 1, 0⟩ = 0 :=
  c3_occlusion_amended (3, 3, 1) c3SeeTh (fun _ => 0) (fun _ => (0, 0, 0))
    [⟨⟨0, 0, 0⟩, 10, (1, 1, 1), 30⟩] ⟨1, 1, 0⟩ (by decide) (by decide) (by decide)

end Unhaunter

namespace Unhaunter

/-- In-plane (x,y) Manhattan distance — the hop metric of the 4-directional
flood, which never leaves its z-plane. -/
def dxy (a b : BoardPosition) : ℕ := ((a.x - b.x).natAbs + (a.y - b.y).natAbs)

/-- The light field produced by flooding a single source of intensity `L` and
hop budget `n` at `p0` on an all-see-through board over a zero initial field:
`L` at the source, `L · (3/4)^d` at every tile first reached after `d` hops
(`d` = in-plane Manhattan distance, within budget and above the 0.001
threshold), `0` elsewhere. -/
def singleFinalLux (ms : MapSize) (p0 : BoardPosition) (L : ℚ) (n : ℕ)
    (p : BoardPosition) : ℚ :=
  if p = p0 then L
  else if p.z = p0.z ∧ inBounds p ms = true ∧ dxy p0 p ≤ n ∧
      ¬ (L * (3 / 4) ^ dxy p0 p < 1 / 1000)
  then L * (3 / 4) ^ dxy p0 p
  else 0

theorem attenuation_mono {L : ℚ} (hL : 0 ≤ L) {j k : ℕ} (h : j ≤ k) :
    L * (3 / 4) ^ k ≤ L * (3 / 4) ^ j :=
  mul_le_mul_of_nonneg_left
    (pow_le_pow_of_le_one (by norm_num) (by norm_num) h) hL

theorem dirNeighbor_z (u : BoardPosition) {d : ℤ × ℤ × ℤ} (hd : d ∈ directions) :
    (dirNeighbor u d).z = u.z := by
  simp only [directions, List.mem_cons, List.not_mem_nil, or_false] at hd
  rcases hd with rfl | rfl | rfl | rfl <;> simp [dirNeighbor]

theorem dirNeighbor_dxy (p0 u : BoardPosition) {d : ℤ × ℤ × ℤ} (hd : d ∈ directions) :
    dxy p0 (dirNeighbor u d) = dxy p0 u + 1 ∨ dxy p0 u = dxy p0 (dirNeighbor u d) + 1 := by
  simp only [directions, List.mem_cons, List.not_mem_nil, or_false] at hd
  rcases hd with rfl | rfl | rfl | rfl <;> simp only [dxy, dirNeighbor] <;> omega

theorem eq_of_dxy_zero {p0 p : BoardPosition} (hz : p.z = p0.z) (h : dxy p0 p = 0) :
    p = p0 := by
  cases p with
  | mk x y z =>
    cases p0 with
    | mk x0 y0 z0 =>
      simp only [dxy] at h
      simp only at hz
      simp only [BoardPosition.mk.injEq]
      omega

/-- A tile at distance 1 in the same plane is one of the four neighbors. -/
theorem adj_of_dxy_one {u t : BoardPosition} (hz : t.z = u.z) (h : dxy u t = 1) :
    ∃ d ∈ directions, t = dirNeighbor u d := by
  cases u with
  | mk ux uy uz =>
    cases t with
    | mk tx ty tz =>
      simp only [dxy] at h
      simp only at hz
      subst hz
      by_cases h1 : ty = uy + 1
      · exact ⟨(0, 1, 0), by simp [directions], by simp [dirNeighbor]; omega⟩
      · by_cases h2 : tx = ux + 1
        · exact ⟨(1, 0, 0), by simp [directions], by simp [dirNeighbor]; omega⟩
        · by_cases h3 : ty = uy - 1
          · exact ⟨(0, -1, 0), by simp [directions], by simp [dirNeighbor]; omega⟩
          · exact ⟨(-1, 0, 0), by simp [directions], by simp [dirNeighbor]; omega⟩

/-- From a tile at positive distance there is an in-bounds neighbor one step
closer to the source (the board is a product of intervals containing both). -/
theorem step_toward {ms : MapSize} {p0 : BoardPosition} (hp0 : inBounds p0 ms = true)
    {t : BoardPosition} (ht : inBounds t ms = true) (hz : t.z = p0.z) {k : ℕ}
    (hd : dxy p0 t = k + 1) :
    ∃ u, inBounds u ms = true ∧ u.z = p0.z ∧ dxy p0 u = k ∧
      ∃ d ∈ directions, t = dirNeighbor u d := by
  simp only [inBounds, is_in_bounds, Bool.and_eq_true, decide_eq_true_eq] at hp0 ht
  obtain ⟨⟨⟨⟨⟨a1, a2⟩, a3⟩, a4⟩, a5⟩, a6⟩ := hp0
  obtain ⟨⟨⟨⟨⟨b1, b2⟩, b3⟩, b4⟩, b5⟩, b6⟩ := ht
  by_cases hx1 : t.x < p0.x
  · refine ⟨⟨t.x + 1, t.y, t.z⟩, ?_, hz, ?_, (-1, 0, 0), by simp [directions], ?_⟩
    · simp only [inBounds, is_in_bounds, Bool.and_eq_true, decide_eq_true_eq]
      refine ⟨⟨⟨⟨⟨?_, ?_⟩, ?_⟩, ?_⟩, ?_⟩, ?_⟩ <;> omega
    · simp only [dxy] at hd ⊢
      omega
    · cases t
      simp only [dirNeighbor, BoardPosition.mk.injEq]
      refine ⟨by omega, by omega, by omega⟩
  · by_cases hx2 : p0.x < t.x
    · refine ⟨⟨t.x - 1, t.y, t.z⟩, ?_, hz, ?_, (1, 0, 0), by simp [directions], ?_⟩
      · simp only [inBounds, is_in_bounds, Bool.and_eq_true, decide_eq_true_eq]
        refine ⟨⟨⟨⟨⟨?_, ?_⟩, ?_⟩, ?_⟩, ?_⟩, ?_⟩ <;> omega
      · simp only [dxy] at hd ⊢
        omega
      · cases t
        simp only [dirNeighbor, BoardPosition.mk.injEq]
        refine ⟨by omega, by omega, by omega⟩
    · by_cases hy1 : t.y < p0.y
      · refine ⟨⟨t.x, t.y + 1, t.z⟩, ?_, hz, ?_, (0, -1, 0), by simp [directions], ?_⟩
        · simp only [inBounds, is_in_bounds, Bool.and_eq_true, decide_eq_true_eq]
          refine ⟨⟨⟨⟨⟨?_, ?_⟩, ?_⟩, ?_⟩, ?_⟩, ?_⟩ <;> omega
        · simp only [dxy] at hd ⊢
          omega
        · cases t
          simp only [dirNeighbor, BoardPosition.mk.injEq]
          refine ⟨by omega, by omega, by omega⟩
      · by_cases hy2 : p0.y < t.y
        · refine ⟨⟨t.x, t.y - 1, t.z⟩, ?_, hz, ?_, (0, 1, 0), by simp [directions], ?_⟩
          · simp only [inBounds, is_in_bounds, Bool.and_eq_true, decide_eq_true_eq]
            refine ⟨⟨⟨⟨⟨?_, ?_⟩, ?_⟩, ?_⟩, ?_⟩, ?_⟩ <;> omega
          · simp only [dxy] at hd ⊢
            omega
          · cases t
            simp only [dirNeighbor, BoardPosition.mk.injEq]
            refine ⟨by omega, by omega, by omega⟩
        · exfalso
          simp only [dxy] at hd
          omega

/-- Between the source plane-distance and any occupied distance every
intermediate distance is realized in bounds. -/
theorem exists_at_dist {ms : MapSize} {p0 : BoardPosition}
    (hp0 : inBounds p0 ms = true) :
    ∀ (D k : ℕ), k ≤ D → ∀ t, inBounds t ms = true → t.z = p0.z → dxy p0 t = D →
    ∃ u, inBounds u ms = true ∧ u.z = p0.z ∧ dxy p0 u = k := by
  intro D
  induction D with
  | zero =>
    intro k hk t ht hz hd
    exact ⟨t, ht, hz, by omega⟩
  | succ D ih =>
    intro k hk t ht hz hd
    by_cases hkD : k = D + 1
    · exact ⟨t, ht, hz, by omega⟩
    · obtain ⟨u, hu1, hu2, hu3, -⟩ := step_toward hp0 ht hz hd
      exact ih k (by omega) u hu1 hu2 hu3

theorem floodAux_nil (ms : MapSize) (seeThrough : BoardPosition → Bool)
    (fuel : ℕ) (st : FloodState) : floodAux ms seeThrough fuel [] st = st := by
  cases fuel <;> rfl

/-- A queue all of whose entries fail the pop check drains without touching
the state. -/
theorem floodAux_drain (ms : MapSize) (seeThrough : BoardPosition → Bool) :
    ∀ (fuel : ℕ) (q : List QEntry) (st : FloodState),
    (∀ e ∈ q, e.dist ≤ 0 ∨ e.lux < 1 / 1000) →
    floodAux ms seeThrough fuel q st = st := by
  intro fuel
  induction fuel with
  | zero => intro q st _; rfl
  | succ fuel ih =>
    intro q st hq
    cases q with
    | nil => rfl
    | cons e rest =>
      simp only [floodAux, if_pos (hq e (List.mem_cons_self _ _))]
      exact ih rest st fun e' he' => hq e' (List.mem_cons_of_mem _ he')

end Unhaunter

namespace Unhaunter

/-- When the flood's queue has drained at phase `m`, the state already carries
the final single-source field. -/
theorem final_state_lux (ms : MapSize) (p0 : BoardPosition)
    (hp0 : inBounds p0 ms = true) (L : ℚ) (hL : 0 < L) (n m : ℕ) (hmn : m ≤ n)
    (hviable : ¬ (L * (3 / 4) ^ m < 1 / 1000)) (st : FloodState)
    (hvis : ∀ p, st.visited p = true ↔
      (inBounds p ms = true ∧ p.z = p0.z ∧ dxy p0 p ≤ m))
    (hlux : ∀ p, st.lux p =
      if st.visited p = true then (if p = p0 then L else L * (3 / 4) ^ dxy p0 p) else 0)
    (hend : ¬ (L * (3 / 4) ^ (m + 1) < 1 / 1000) → m + 1 ≤ n →
      ∀ t, inBounds t ms = true → t.z = p0.z → ¬ (dxy p0 t = m + 1)) :
    ∀ p, st.lux p = singleFinalLux ms p0 L n p := by
  intro p
  rw [hlux p, singleFinalLux]
  by_cases hv : st.visited p = true
  · rw [if_pos hv]
    obtain ⟨hb, hz, hdle⟩ := (hvis p).mp hv
    by_cases hpp : p = p0
    · rw [if_pos hpp, if_pos hpp]
    · rw [if_neg hpp, if_neg hpp, if_pos ?_]
      refine ⟨hz, hb, le_trans hdle hmn, ?_⟩
      intro hlt
      exact hviable (lt_of_le_of_lt (attenuation_mono hL.le hdle) hlt)
  · rw [if_neg hv]
    have hnp0 : p ≠ p0 := fun h => hv ((hvis p).mpr (by
      subst h
      exact ⟨hp0, rfl, by simp [dxy]⟩))
    rw [if_neg hnp0]
    by_cases hcond : p.z = p0.z ∧ inBounds p ms = true ∧ dxy p0 p ≤ n ∧
        ¬ (L * (3 / 4) ^ dxy p0 p < 1 / 1000)
    · exfalso
      obtain ⟨hz, hb, hdn, hth⟩ := hcond
      have hdgt : m < dxy p0 p := by
        by_contra h
        exact hv ((hvis p).mpr ⟨hb, hz, by omega⟩)
      have hth1 : ¬ (L * (3 / 4) ^ (m + 1) < 1 / 1000) := fun hlt =>
        hth (lt_of_le_of_lt (attenuation_mono hL.le (by omega)) hlt)
      obtain ⟨u, hu1, hu2, hu3⟩ :=
        exists_at_dist hp0 (dxy p0 p) (m + 1) (by omega) p hb hz rfl
      exact hend hth1 (by omega) u hu1 hu2 hu3
    · rw [if_neg hcond]

end Unhaunter

namespace Unhaunter

set_option maxHeartbeats 2000000 in
/-- The layered invariant of the single-source flood on an all-see-through
board: processing a queue made of the remaining layer-`m` entries followed by
the already-discovered layer-`m+1` entries yields the final field
`singleFinalLux`. The induction measure is `fuel + (n - m)`: every loop
iteration consumes fuel, and the phase change consumes budget. -/
theorem flood_phase (ms : MapSize) (seeThrough : BoardPosition → Bool)
    (hsee : ∀ p, seeThrough p = true)
    (p0 : BoardPosition) (hp0 : inBounds p0 ms = true)
    (L : ℚ) (hL : 0 < L) (n : ℕ) :
    ∀ (S fuel m : ℕ) (Qm Qp : List QEntry) (st : FloodState),
    fuel + (n - m) ≤ S →
    floodMeasure ms (Qm ++ Qp) st ≤ fuel →
    m ≤ n →
    ¬ (L * (3 / 4) ^ m < 1 / 1000) →
    (∀ q ∈ Qm, q.dist = (n : ℚ) - (m : ℚ) ∧ q.lux = L * (3 / 4) ^ m ∧
      inBounds q.pos ms = true ∧ q.pos.z = p0.z ∧ dxy p0 q.pos = m) →
    (∀ q ∈ Qp, q.dist = (n : ℚ) - ((m : ℚ) + 1) ∧ q.lux = L * (3 / 4) ^ (m + 1) ∧
      inBounds q.pos ms = true ∧ q.pos.z = p0.z ∧ dxy p0 q.pos = m + 1) →
    (Qp ≠ [] → m + 1 ≤ n) →
    (Qp ≠ [] → ¬ (L * (3 / 4) ^ (m + 1) < 1 / 1000)) →
    (∀ p, st.visited p = true ↔
      ((inBounds p ms = true ∧ p.z = p0.z ∧ dxy p0 p ≤ m) ∨ p ∈ Qp.map QEntry.pos)) →
    (∀ p, st.lux p =
      if st.visited p = true then (if p = p0 then L else L * (3 / 4) ^ dxy p0 p) else 0) →
    (¬ (L * (3 / 4) ^ (m + 1) < 1 / 1000) → m + 1 ≤ n →
      ∀ t, inBounds t ms = true → t.z = p0.z → dxy p0 t = m + 1 →
        (t ∈ Qp.map QEntry.pos ∨ ∃ q ∈ Qm, ∃ d ∈ directions, t = dirNeighbor q.pos d)) →
    ∀ p, (floodAux ms seeThrough fuel (Qm ++ Qp) st).lux p = singleFinalLux ms p0 L n p := by
  intro S
  induction S with
  | zero =>
    intro fuel m Qm Qp st hS hfuel hmn hviable hQm hQp hQpn hQpv hvis hlux hcov p
    have hfuel0 : fuel = 0 := by omega
    subst hfuel0
    have hqnil : Qm ++ Qp = [] := by
      cases hq : Qm ++ Qp with
      | nil => rfl
      | cons e rest =>
        rw [floodMeasure, hq, List.length_cons] at hfuel
        omega
    obtain ⟨hQmnil, hQpnil⟩ := List.append_eq_nil.mp hqnil
    subst hQmnil
    subst hQpnil
    rw [List.nil_append, floodAux_nil]
    refine final_state_lux ms p0 hp0 L hL n m hmn hviable st ?_ hlux ?_ p
    · intro p'
      rw [hvis p']
      simp
    · intro h1 h2 t ht hz hd
      rcases hcov h1 h2 t ht hz hd with h | ⟨q, hq, -⟩
      · simp at h
      · simp at hq
  | succ S ih =>
    intro fuel m Qm Qp st hS hfuel hmn hviable hQm hQp hQpn hQpv hvis hlux hcov p
    cases hQmc : Qm with
    | nil =>
      subst hQmc
      cases hQpc : Qp with
      | nil =>
        subst hQpc
        rw [List.nil_append, floodAux_nil]
        refine final_state_lux ms p0 hp0 L hL n m hmn hviable st ?_ hlux ?_ p
        · intro p'
          rw [hvis p']
          simp
        · intro h1 h2 t ht hz hd
          rcases hcov h1 h2 t ht hz hd with h | ⟨q, hq, -⟩
          · simp at h
          · simp at hq
      | cons e Qp' =>
        -- phase change: the layer-(m+1) entries become the new working layer
        subst hQpc
        have hne : (e :: Qp' : List QEntry) ≠ [] := List.cons_ne_nil _ _
        have hmn1 : m + 1 ≤ n := hQpn hne
        have hviable1 : ¬ (L * (3 / 4) ^ (m + 1) < 1 / 1000) := hQpv hne
        rw [List.nil_append,
          show (e :: Qp' : List QEntry) = (e :: Qp') ++ [] by rw [List.append_nil]]
        refine ih fuel (m + 1) (e :: Qp') [] st (by omega)
          (by rw [List.append_nil]
              rw [List.nil_append] at hfuel
              exact hfuel)
          hmn1 hviable1 ?_ (by simp) (by simp) (by simp) ?_ hlux ?_ p
        · intro q hq
          obtain ⟨h1, h2, h3, h4, h5⟩ := hQp q hq
          refine ⟨?_, ?_, h3, h4, h5⟩
          · rw [h1]
            push_cast
            ring
          · rw [h2]
        · intro p'
          rw [hvis p']
          simp only [List.map_nil, List.not_mem_nil, or_false]
          constructor
          · rintro (⟨h1, h2, h3⟩ | h)
            · exact ⟨h1, h2, by omega⟩
            · obtain ⟨q, hq, he'⟩ := List.mem_map.mp h
              obtain ⟨-, -, h3, h4, h5⟩ := hQp q hq
              rw [← he']
              exact ⟨h3, h4, by omega⟩
          · rintro ⟨h1, h2, h3⟩
            by_cases hd : dxy p0 p' ≤ m
            · exact Or.inl ⟨h1, h2, hd⟩
            · have hd1 : dxy p0 p' = m + 1 := by omega
              rcases hcov hviable1 hmn1 p' h1 h2 hd1 with h | ⟨q, hq, -⟩
              · exact Or.inr h
              · simp at hq
        · intro h1 h2 t ht hz hd
          obtain ⟨u, hu1, hu2, hu3, hu4⟩ := step_toward hp0 ht hz hd
          have humem : u ∈ (e :: Qp').map QEntry.pos := by
            rcases hcov hviable1 hmn1 u hu1 hu2 hu3 with h | ⟨q, hq, -⟩
            · exact h
            · simp at hq
          obtain ⟨q, hq, he'⟩ := List.mem_map.mp humem
          exact Or.inr ⟨q, hq, by rw [he']; exact hu4⟩
    | cons e Qm' =>
      subst hQmc
      cases fuel with
      | zero =>
        rw [floodMeasure, List.cons_append, List.length_cons] at hfuel
        omega
      | succ f =>
        obtain ⟨he1, he2, he3, he4, he5⟩ := hQm e (List.mem_cons_self _ _)
        rw [List.cons_append]
        by_cases hskip : e.dist ≤ 0 ∨ e.lux < 1 / 1000
        · -- the budget is exhausted at this layer: m = n
          have hmeq : m = n := by
            rcases hskip with h | h
            · rw [he1] at h
              have : (n : ℚ) ≤ (m : ℚ) := by linarith
              have : n ≤ m := by exact_mod_cast this
              omega
            · rw [he2] at h
              exact absurd h hviable
          simp only [floodAux, if_pos hskip]
          refine ih f m Qm' Qp st (by omega) ?_ hmn hviable
            (fun q hq => hQm q (List.mem_cons_of_mem _ hq)) hQp hQpn hQpv hvis hlux ?_ p
          · rw [floodMeasure] at hfuel ⊢
            rw [List.cons_append, List.length_cons] at hfuel
            omega
          · intro h1 h2
            omega
        · -- expand the layer-m entry
          have hmlt : m < n := by
            have : ¬ e.dist ≤ 0 := fun h => hskip (Or.inl h)
            rw [he1] at this
            have : (m : ℚ) < (n : ℚ) := by linarith [not_le.mp this]
            exact_mod_cast this
          simp only [floodAux, if_neg hskip]
          obtain ⟨new, hacc, hf⟩ := expandEntry_spec ms seeThrough e st
          generalize hE : expandEntry ms seeThrough e st = E at hacc hf ⊢
          obtain ⟨st', pushed⟩ := E
          dsimp only at hacc hf ⊢
          clear hE
          rw [hacc, List.append_assoc]
          have hlux_step : e.lux * (3 / 4) = L * (3 / 4) ^ (m + 1) := by
            rw [he2, pow_succ, mul_assoc]
          have hdist_step : e.dist - 1 = (n : ℚ) - ((m : ℚ) + 1) := by
            rw [he1]; ring
          have hnewpos : ∀ q ∈ new, inBounds q.pos ms = true ∧ q.pos.z = p0.z ∧
              dxy p0 q.pos = m + 1 := by
            intro q hq
            obtain ⟨d, hd, he'⟩ := hf.mem_dir q hq
            have hzq : q.pos.z = p0.z := by rw [he', dirNeighbor_z e.pos hd, he4]
            have hinb := hf.entry_inb q hq
            refine ⟨hinb, hzq, ?_⟩
            have hunv := hf.entry_unvisited q hq
            have hnot : ¬ ((inBounds q.pos ms = true ∧ q.pos.z = p0.z ∧
                dxy p0 q.pos ≤ m) ∨ q.pos ∈ Qp.map QEntry.pos) := by
              intro h
              rw [← hvis q.pos] at h
              rw [h] at hunv
              cases hunv
            push_neg at hnot
            have hgt : m < dxy p0 q.pos := hnot.1 hinb hzq
            have := dirNeighbor_dxy p0 e.pos hd
            rw [← he'] at this
            omega
          refine ih f m Qm' (Qp ++ new) st' (by omega) ?_
            hmn hviable (fun q hq => hQm q (List.mem_cons_of_mem _ hq)) ?_
            (fun _ => by omega) ?_ ?_ ?_ ?_ p
          · -- fuel bound via the strictly decreasing loop measure
            have hcount := unvisitedCount_expand ms hf.visited_iff hf.entry_inb
              hf.entry_unvisited hf.nodup
            simp only [floodMeasure, List.cons_append, List.length_cons,
              List.length_append] at hfuel ⊢
            omega
          · intro q hq
            rcases List.mem_append.mp hq with h | h
            · exact hQp q h
            · obtain ⟨hb, hz, hd⟩ := hnewpos q h
              obtain ⟨hsh1, hsh2, -⟩ := hf.entry_shape q h
              exact ⟨by rw [hsh1, hdist_step], by rw [hsh2, hlux_step], hb, hz, hd⟩
          · -- viability of the next layer
            intro hne
            rcases hQpe : Qp with _ | ⟨q0, Qp0⟩
            · subst hQpe
              rw [List.nil_append] at hne
              rw [← hlux_step]
              exact hf.entry_bright hne
            · exact hQpv (by rw [hQpe]; exact List.cons_ne_nil _ _)
          · -- visited invariant
            intro p'
            rw [hf.visited_iff p', hvis p', List.map_append, List.mem_append]
            exact or_assoc
          · -- lux invariant
            intro p'
            by_cases hmem : p' ∈ new.map QEntry.pos
            · obtain ⟨q, hq, he'⟩ := List.mem_map.mp hmem
              subst he'
              obtain ⟨hb, hz, hd⟩ := hnewpos q hq
              have hunv := hf.entry_unvisited q hq
              have hvisd : st'.visited q.pos = true :=
                (hf.visited_iff q.pos).mpr (Or.inr hmem)
              rw [hf.lux_add q.pos hmem, hlux q.pos, hunv,
                if_neg (by simp : ¬ (false = true)), hvisd, if_pos rfl, zero_add]
              have hnp0 : q.pos ≠ p0 := fun h => by
                rw [h] at hd
                simp [dxy] at hd
              rw [if_neg hnp0, hd]
              exact hlux_step
            · rw [hf.lux_untouched p' hmem, hlux p']
              have : st'.visited p' = st.visited p' := by
                by_cases hv : st.visited p' = true
                · rw [hv, ((hf.visited_iff p').mpr (Or.inl hv))]
                · have : ¬ st'.visited p' = true := by
                    intro h
                    rcases (hf.visited_iff p').mp h with h' | h'
                    · exact hv h'
                    · exact hmem h'
                  rw [Bool.not_eq_true] at this hv
                  rw [this, hv]
              rw [this]
          · -- coverage invariant
            intro h1 h2 t ht hz hd
            rcases hcov h1 h2 t ht hz hd with h | ⟨q, hq, d, hdd, he'⟩
            · exact Or.inl (by rw [List.map_append, List.mem_append]; exact Or.inl h)
            · rcases List.mem_cons.mp hq with rfl | hq'
              · by_cases hv : st.visited t = true
                · rcases (hvis t).mp hv with ⟨-, -, hle⟩ | hmem
                  · omega
                  · exact Or.inl (by rw [List.map_append, List.mem_append]; exact Or.inl hmem)
                · have hcomp := hf.complete d hdd (by rw [← he']; exact ht)
                    (by rw [← he']; rw [Bool.not_eq_true] at hv; exact hv)
                    (hsee _) (by rw [hlux_step]; exact h1)
                  rw [← he'] at hcomp
                  exact Or.inl (by rw [List.map_append, List.mem_append]; exact Or.inr hcomp)
              · exact Or.inr ⟨q, hq', d, hdd, he'⟩

end Unhaunter

namespace Unhaunter

/-- Specialisation of `flood_phase` to the real entry point: seeding a single
dynamic light of intensity `L`, colour `c` and budget `n` at `p0` on an
all-see-through board over a zero lux field and flooding yields exactly
`singleFinalLux`. -/
theorem add_single_source_lux (ms : MapSize) (seeThrough : BoardPosition → Bool)
    (hsee : ∀ p, seeThrough p = true) (color0 : BoardPosition → ℚ × ℚ × ℚ)
    (p0 : BoardPosition) (hp0 : inBounds p0 ms = true)
    (L : ℚ) (hL : 0 < L) (hviable : ¬ (L < 1 / 1000)) (c : ℚ × ℚ × ℚ) (n : ℕ) :
    ∀ p, (add_dynamic_light_sources ms seeThrough (fun _ => (0 : ℚ)) color0
        [⟨p0, L, c, (n : ℚ)⟩]).lux p = singleFinalLux ms p0 L n p := by
  intro p
  have hrun : add_dynamic_light_sources ms seeThrough (fun _ => (0 : ℚ)) color0
      [⟨p0, L, c, (n : ℚ)⟩] =
      floodAux ms seeThrough (2 * volume ms + 1)
        (([⟨p0, (n : ℚ), L, c⟩] : List QEntry) ++ [])
        ⟨fun q => if q = p0 then (0 : ℚ) + L else (0 : ℚ),
         fun q => if q = p0 then
             (if 0 < (if p0 = p0 then (0 : ℚ) + L else (0 : ℚ)) then
               blend_colors (color0 p0)
                 ((if p0 = p0 then (0 : ℚ) + L else (0 : ℚ)) - L) c L
             else c)
           else color0 q,
         fun q => if q = p0 then true else false⟩ := rfl
  rw [hrun]
  refine flood_phase ms seeThrough hsee p0 hp0 L hL n
    (2 * volume ms + 1 + n) (2 * volume ms + 1) 0
    [⟨p0, (n : ℚ), L, c⟩] [] _ (by omega) ?hfuel (Nat.zero_le n) ?hv0 ?hQm
    (fun q hq => absurd hq (List.not_mem_nil q)) (fun h => absurd rfl h)
    (fun h => absurd rfl h) ?hvis ?hlux ?hcov p
  case hfuel =>
    simp only [floodMeasure, List.append_nil, List.length_cons, List.length_nil]
    exact Nat.add_le_add_right (Nat.mul_le_mul_left 2 (unvisitedCount_le ms _)) 1
  case hv0 =>
    rw [pow_zero, mul_one]
    exact hviable
  case hQm =>
    intro q hq
    rw [List.mem_singleton] at hq
    subst hq
    refine ⟨by norm_num, by norm_num, hp0, rfl, by simp [dxy]⟩
  case hvis =>
    intro p'
    show (if p' = p0 then true else false) = true ↔ _
    simp only [List.map_nil, List.not_mem_nil, or_false]
    by_cases he : p' = p0
    · subst he
      simp [hp0, dxy]
    · rw [if_neg he]
      simp only [Bool.false_eq_true, false_iff]
      rintro ⟨hb, hz, hd⟩
      exact he (eq_of_dxy_zero hz (Nat.le_zero.mp hd))
  case hlux =>
    intro p'
    show (if p' = p0 then (0 : ℚ) + L else 0) = _
    by_cases he : p' = p0
    · simp [he]
    · simp [he]
  case hcov =>
    intro _ _ t ht hz hd
    right
    refine ⟨⟨p0, (n : ℚ), L, c⟩, List.mem_singleton_self _, ?_⟩
    show ∃ d ∈ directions, t = dirNeighbor p0 d
    exact adj_of_dxy_one hz (by omega)

end Unhaunter

namespace Unhaunter

/-- C4: per-hop attenuation of the runtime BFS flood. (1) One expansion of a
popped entry pushes only 4-direction destination tiles that are in bounds,
see-through and unvisited; each pushed entry carries exactly 3/4 of the
popped lux and one less remaining hop, and nothing is pushed once the
attenuated lux is below the 0.001 threshold. (2) A popped entry whose hop
budget is exhausted (dist ≤ 0) or whose lux is below 0.001 contributes
nothing further: that loop iteration only drops it. (3) Consequently a single
source of intensity `L` and budget `n` on an all-see-through board over a
zero field gives every tile at in-plane hop distance `d` exactly
`L · (3/4)^d` (within budget and above threshold; `0` beyond), and (4) this
per-hop value is strictly decreasing in `d`. -/
theorem c4_per_hop_attenuation :
    (∀ (ms : MapSize) (seeThrough : BoardPosition → Bool) (e : QEntry)
       (st : FloodState) (q : QEntry),
       q ∈ (expandEntry ms seeThrough e st).2 →
       q.lux = e.lux * (3 / 4) ∧ q.dist = e.dist - 1 ∧
       inBounds q.pos ms = true ∧ seeThrough q.pos = true ∧
       st.visited q.pos = false ∧ (∃ d ∈ directions, q.pos = dirNeighbor e.pos d) ∧
       ¬ (e.lux * (3 / 4) < 1 / 1000)) ∧
    (∀ (ms : MapSize) (seeThrough : BoardPosition → Bool) (fuel : ℕ)
       (e : QEntry) (rest : List QEntry) (st : FloodState),
       e.dist ≤ 0 ∨ e.lux < 1 / 1000 →
       floodAux ms seeThrough (fuel + 1) (e :: rest) st =
         floodAux ms seeThrough fuel rest st) ∧
    (∀ (ms : MapSize) (seeThrough : BoardPosition → Bool),
       (∀ p, seeThrough p = true) →
       ∀ (color0 : BoardPosition → ℚ × ℚ × ℚ) (p0 : BoardPosition),
       inBounds p0 ms = true →
       ∀ (L : ℚ), 0 < L → ¬ (L < 1 / 1000) →
       ∀ (c : ℚ × ℚ × ℚ) (n : ℕ) (p : BoardPosition),
       (add_dynamic_light_sources ms seeThrough (fun _ => (0 : ℚ)) color0
           [⟨p0, L, c, (n : ℚ)⟩]).lux p = singleFinalLux ms p0 L n p) ∧
    (∀ (L : ℚ), 0 < L → ∀ (j k : ℕ), j < k →
       L * (3 / 4) ^ k < L * (3 / 4) ^ j) := by
  refine ⟨?_, ?_, ?_, ?_⟩
  · intro ms seeThrough e st q hq
    obtain ⟨new, hnew, hf⟩ := expandEntry_spec ms seeThrough e st
    rw [hnew] at hq
    obtain ⟨hd1, hl1, -⟩ := hf.entry_shape q hq
    exact ⟨hl1, hd1, hf.entry_inb q hq, hf.entry_seeth q hq,
      hf.entry_unvisited q hq, hf.mem_dir q hq,
      hf.entry_bright (List.ne_nil_of_mem hq)⟩
  · intro ms seeThrough fuel e rest st h
    simp only [floodAux, if_pos h]
  · intro ms seeThrough hsee color0 p0 hp0 L hL hv c n p
    exact add_single_source_lux ms seeThrough hsee color0 p0 hp0 L hL hv c n p
  · intro L hL j k hjk
    exact mul_lt_mul_of_pos_left
      (pow_lt_pow_right_of_lt_one₀ (by norm_num) (by norm_num) hjk) hL

/-- C4 witness: a 5×1×1 strip, one source of intensity 8 and budget 3 at the
corner; the tile two hops away ends with lux 8 · (3/4)² = 9/2, and the
per-hop value strictly decreases from hop 1 to hop 2. -/
theorem c4_per_hop_attenuation_witness :
    (add_dynamic_light_sources (5, 1, 1) (fun _ => true) (fun _ => (0 : ℚ))
        (fun _ => ((0 : ℚ), (0 : ℚ), (0 : ℚ)))
        [⟨⟨0, 0, 0⟩, 8, (1, 1, 1), ((3 : ℕ) : ℚ)⟩]).lux ⟨2, 0, 0⟩ = 9 / 2 ∧
    (8 : ℚ) * (3 / 4) ^ (2 : ℕ) < 8 * (3 / 4) ^ (1 : ℕ) := by
  constructor
  · have h := c4_per_hop_attenuation.2.2.1 (5, 1, 1) (fun _ => true) (fun _ => rfl)
      (fun _ => ((0 : ℚ), (0 : ℚ), (0 : ℚ))) ⟨0, 0, 0⟩ (by decide) 8 (by norm_num)
      (by norm_num) (1, 1, 1) 3 ⟨2, 0, 0⟩
    have hd : dxy (⟨0, 0, 0⟩ : BoardPosition) ⟨2, 0, 0⟩ = 2 := by decide
    rw [h, singleFinalLux, hd]
    norm_num [inBounds, is_in_bounds, BoardPosition.mk.injEq]
  · exact c4_per_hop_attenuation.2.2.2 8 (by norm_num) 1 2 (by norm_num)

end Unhaunter

namespace Unhaunter

/-- The influence ball of a queue entry: the entry's own tile together with
every tile of its plane that any chain of pushes starting from it can still
reach or write (hop `k` from the entry requires `k < dist + 1`). -/
def entryBall (q : QEntry) (p : BoardPosition) : Prop :=
  p = q.pos ∨ (p.z = q.pos.z ∧ ((dxy q.pos p : ℚ) < q.dist + 1))

instance (q : QEntry) (p : BoardPosition) : Decidable (entryBall q p) :=
  decidable_of_iff (p = q.pos ∨ (p.z = q.pos.z ∧ ((dxy q.pos p : ℚ) < q.dist + 1)))
    Iff.rfl

theorem entryBall_pos (q : QEntry) : entryBall q q.pos := Or.inl rfl

theorem dxy_triangle (a b c : BoardPosition) : dxy a c ≤ dxy a b + dxy b c := by
  simp only [dxy]
  omega

theorem dirNeighbor_dxy_self (u : BoardPosition) {d : ℤ × ℤ × ℤ}
    (hd : d ∈ directions) : dxy u (dirNeighbor u d) = 1 := by
  simp only [directions, List.mem_cons, List.not_mem_nil, or_false] at hd
  rcases hd with rfl | rfl | rfl | rfl <;> simp only [dxy, dirNeighbor] <;> omega

/-- While an entry still has budget, each of its four probed neighbors lies in
its influence ball. -/
theorem dirNeighbor_mem_ball {e : QEntry} (hdist : 0 < e.dist) {d : ℤ × ℤ × ℤ}
    (hd : d ∈ directions) : entryBall e (dirNeighbor e.pos d) :=
  Or.inr ⟨dirNeighbor_z e.pos hd, by
    rw [dirNeighbor_dxy_self e.pos hd]
    push_cast
    linarith⟩

/-- The influence ball of a pushed entry is contained in the ball of the
entry it was pushed from. -/
theorem entryBall_push {e : QEntry} (hdist : 0 < e.dist) {d : ℤ × ℤ × ℤ}
    (hd : d ∈ directions) {q' : QEntry} (hpos : q'.pos = dirNeighbor e.pos d)
    (hdq : q'.dist = e.dist - 1) :
    ∀ p, entryBall q' p → entryBall e p := by
  intro p hp
  have hz : q'.pos.z = e.pos.z := by
    rw [hpos]
    exact dirNeighbor_z e.pos hd
  have h1 : dxy e.pos q'.pos = 1 := by
    rw [hpos]
    exact dirNeighbor_dxy_self e.pos hd
  rcases hp with rfl | ⟨hpz, hlt⟩
  · refine Or.inr ⟨hz, ?_⟩
    rw [h1]
    push_cast
    linarith
  · refine Or.inr ⟨hpz.trans hz, ?_⟩
    have htri : dxy e.pos p ≤ dxy e.pos q'.pos + dxy q'.pos p := dxy_triangle _ _ _
    have hcast : (dxy e.pos p : ℚ) ≤ 1 + (dxy q'.pos p : ℚ) := by
      have hn : dxy e.pos p ≤ 1 + dxy q'.pos p := by omega
      exact_mod_cast hn
    rw [hdq] at hlt
    linarith

/-- The neighbor fold makes identical decisions over two states that agree on
`visited` at the probed neighbors: it pushes exactly the same entries, and it
preserves pointwise agreement of `visited` and `lux`. -/
theorem stepNeighbor_fold_congr (ms : MapSize) (seeThrough : BoardPosition → Bool)
    (e : QEntry) :
    ∀ (ds : List (ℤ × ℤ × ℤ)) (st st' : FloodState) (acc : List QEntry),
    (∀ d ∈ ds, st.visited (dirNeighbor e.pos d) = st'.visited (dirNeighbor e.pos d)) →
    (ds.foldl (stepNeighbor ms seeThrough e) (st, acc)).2 =
      (ds.foldl (stepNeighbor ms seeThrough e) (st', acc)).2 ∧
    ∀ p, st.visited p = st'.visited p → st.lux p = st'.lux p →
      (ds.foldl (stepNeighbor ms seeThrough e) (st, acc)).1.visited p =
        (ds.foldl (stepNeighbor ms seeThrough e) (st', acc)).1.visited p ∧
      (ds.foldl (stepNeighbor ms seeThrough e) (st, acc)).1.lux p =
        (ds.foldl (stepNeighbor ms seeThrough e) (st', acc)).1.lux p := by
  intro ds
  induction ds with
  | nil =>
    intro st st' acc _
    exact ⟨rfl, fun p hv hl => ⟨hv, hl⟩⟩
  | cons d ds ih =>
    intro st st' acc h
    rw [List.foldl_cons, List.foldl_cons]
    have hn := h d (List.mem_cons_self _ _)
    have htail := fun d' hd' => h d' (List.mem_cons_of_mem d hd')
    set n0 := dirNeighbor e.pos d with hn0
    by_cases h1 : is_in_bounds (n0.x, n0.y, n0.z) ms = true
    case neg =>
      have hs1 : stepNeighbor ms seeThrough e (st, acc) d = (st, acc) := by
        unfold stepNeighbor
        rw [if_pos (by exact h1)]
      have hs2 : stepNeighbor ms seeThrough e (st', acc) d = (st', acc) := by
        unfold stepNeighbor
        rw [if_pos (by exact h1)]
      rw [hs1, hs2]
      exact ih st st' acc htail
    case pos =>
      by_cases h2 : st.visited n0 = true
      case pos =>
        have hs1 : stepNeighbor ms seeThrough e (st, acc) d = (st, acc) := by
          unfold stepNeighbor
          rw [if_neg (by rw [not_not]; exact h1), if_pos (by exact h2)]
        have hs2 : stepNeighbor ms seeThrough e (st', acc) d = (st', acc) := by
          unfold stepNeighbor
          rw [if_neg (by rw [not_not]; exact h1), if_pos (by rw [← hn]; exact h2)]
        rw [hs1, hs2]
        exact ih st st' acc htail
      case neg =>
        by_cases h3 : seeThrough n0 = true
        case neg =>
          have hs1 : stepNeighbor ms seeThrough e (st, acc) d = (st, acc) := by
            unfold stepNeighbor
            rw [if_neg (by rw [not_not]; exact h1), if_neg (by exact h2),
              if_pos (by exact h3)]
          have hs2 : stepNeighbor ms seeThrough e (st', acc) d = (st', acc) := by
            unfold stepNeighbor
            rw [if_neg (by rw [not_not]; exact h1),
              if_neg (by rw [← hn]; exact h2), if_pos (by exact h3)]
          rw [hs1, hs2]
          exact ih st st' acc htail
        case pos =>
          by_cases h4 : e.lux * (3 / 4) < 1 / 1000
          case pos =>
            have hs1 : stepNeighbor ms seeThrough e (st, acc) d = (st, acc) := by
              unfold stepNeighbor
              rw [if_neg (by rw [not_not]; exact h1), if_neg (by exact h2),
                if_neg (by rw [not_not]; exact h3), if_pos (by exact h4)]
            have hs2 : stepNeighbor ms seeThrough e (st', acc) d = (st', acc) := by
              unfold stepNeighbor
              rw [if_neg (by rw [not_not]; exact h1),
                if_neg (by rw [← hn]; exact h2),
                if_neg (by rw [not_not]; exact h3), if_pos (by exact h4)]
            rw [hs1, hs2]
            exact ih st st' acc htail
          case neg =>
            set q0 : QEntry := ⟨n0, e.dist - 1, e.lux * (3 / 4), e.color⟩ with hq0
            set st1 : FloodState :=
              ⟨fun q => if q = n0 then st.lux q + e.lux * (3 / 4) else st.lux q,
               fun q => if q = n0 then
                  (if 0 < (if n0 = n0 then st.lux n0 + e.lux * (3 / 4) else st.lux n0) then
                    blend_colors (st.color n0)
                      ((if n0 = n0 then st.lux n0 + e.lux * (3 / 4) else st.lux n0)
                        - e.lux * (3 / 4)) e.color (e.lux * (3 / 4))
                  else e.color)
                else st.color q,
               fun q => if q = n0 then true else st.visited q⟩ with hst1
            set st1' : FloodState :=
              ⟨fun q => if q = n0 then st'.lux q + e.lux * (3 / 4) else st'.lux q,
               fun q => if q = n0 then
                  (if 0 < (if n0 = n0 then st'.lux n0 + e.lux * (3 / 4) else st'.lux n0) then
                    blend_colors (st'.color n0)
                      ((if n0 = n0 then st'.lux n0 + e.lux * (3 / 4) else st'.lux n0)
                        - e.lux * (3 / 4)) e.color (e.lux * (3 / 4))
                  else e.color)
                else st'.color q,
               fun q => if q = n0 then true else st'.visited q⟩ with hst1'
            have hs1 : stepNeighbor ms seeThrough e (st, acc) d = (st1, acc ++ [q0]) := by
              unfold stepNeighbor
              rw [if_neg (by rw [not_not]; exact h1), if_neg (by exact h2),
                if_neg (by rw [not_not]; exact h3), if_neg (by exact h4)]
            have hs2 : stepNeighbor ms seeThrough e (st', acc) d = (st1', acc ++ [q0]) := by
              unfold stepNeighbor
              rw [if_neg (by rw [not_not]; exact h1),
                if_neg (by rw [← hn]; exact h2),
                if_neg (by rw [not_not]; exact h3), if_neg (by exact h4)]
            rw [hs1, hs2]
            have htail' : ∀ d' ∈ ds, st1.visited (dirNeighbor e.pos d') =
                st1'.visited (dirNeighbor e.pos d') := by
              intro d' hd'
              show (if dirNeighbor e.pos d' = n0 then true
                  else st.visited (dirNeighbor e.pos d')) =
                (if dirNeighbor e.pos d' = n0 then true
                  else st'.visited (dirNeighbor e.pos d'))
              by_cases hx : dirNeighbor e.pos d' = n0
              · rw [if_pos hx, if_pos hx]
              · rw [if_neg hx, if_neg hx]
                exact htail d' hd'
            obtain ⟨hq, hpt⟩ := ih st1 st1' (acc ++ [q0]) htail'
            refine ⟨hq, ?_⟩
            intro p hv hl
            refine hpt p ?_ ?_
            · show (if p = n0 then true else st.visited p) =
                (if p = n0 then true else st'.visited p)
              by_cases hx : p = n0
              · rw [if_pos hx, if_pos hx]
              · rw [if_neg hx, if_neg hx]
                exact hv
            · show (if p = n0 then st.lux p + e.lux * (3 / 4) else st.lux p) =
                (if p = n0 then st'.lux p + e.lux * (3 / 4) else st'.lux p)
              by_cases hx : p = n0
              · rw [if_pos hx, if_pos hx, hl]
              · rw [if_neg hx, if_neg hx]
                exact hl

/-- `expandEntry` version of the congruence fact. -/
theorem expandEntry_congr (ms : MapSize) (seeThrough : BoardPosition → Bool)
    (e : QEntry) (st st' : FloodState)
    (h : ∀ d ∈ directions, st.visited (dirNeighbor e.pos d) =
      st'.visited (dirNeighbor e.pos d)) :
    (expandEntry ms seeThrough e st).2 = (expandEntry ms seeThrough e st').2 ∧
    ∀ p, st.visited p = st'.visited p → st.lux p = st'.lux p →
      (expandEntry ms seeThrough e st).1.visited p =
        (expandEntry ms seeThrough e st').1.visited p ∧
      (expandEntry ms seeThrough e st).1.lux p =
        (expandEntry ms seeThrough e st').1.lux p :=
  stepNeighbor_fold_congr ms seeThrough e directions st st' [] h

/-- A tile that is none of the four probed neighbors keeps its `visited` flag
and its lux through one expansion. -/
theorem expandEntry_untouched (ms : MapSize) (seeThrough : BoardPosition → Bool)
    (e : QEntry) (st : FloodState) (p : BoardPosition)
    (hp : ∀ d ∈ directions, p ≠ dirNeighbor e.pos d) :
    (expandEntry ms seeThrough e st).1.visited p = st.visited p ∧
    (expandEntry ms seeThrough e st).1.lux p = st.lux p := by
  obtain ⟨new, hnew, hf⟩ := expandEntry_spec ms seeThrough e st
  have hpn : p ∉ new.map QEntry.pos := by
    intro hmem
    obtain ⟨q, hq, he'⟩ := List.mem_map.mp hmem
    obtain ⟨d, hd, hqd⟩ := hf.mem_dir q hq
    exact hp d hd (by rw [← he', hqd])
  refine ⟨?_, hf.lux_untouched p hpn⟩
  by_cases hv : st.visited p = true
  · rw [hv, (hf.visited_iff p).mpr (Or.inl hv)]
  · have hnv : ¬ (expandEntry ms seeThrough e st).1.visited p = true := by
      intro hh
      rcases (hf.visited_iff p).mp hh with h' | h'
      · exact hv h'
      · exact hpn h'
    rw [Bool.not_eq_true] at hnv hv
    rw [hnv, hv]

end Unhaunter

namespace Unhaunter

set_option maxHeartbeats 1000000 in
/-- Non-interference of the BFS flood: when every queue entry's influence
ball lies entirely inside or entirely outside a region `A`, the tiles of `A`
end with exactly the lux produced by running only the `A`-entries of the
queue over any state that agrees with the original on `A`. -/
theorem flood_noninterfere (ms : MapSize) (seeThrough : BoardPosition → Bool)
    (A : BoardPosition → Bool) :
    ∀ (fuel1 : ℕ) (Q : List QEntry) (st st' : FloodState) (fuel2 : ℕ),
    floodMeasure ms Q st ≤ fuel1 →
    floodMeasure ms (Q.filter fun q => A q.pos) st' ≤ fuel2 →
    (∀ q ∈ Q, (∀ p, entryBall q p → A p = true) ∨ (∀ p, entryBall q p → A p = false)) →
    (∀ p, A p = true → st.visited p = st'.visited p ∧ st.lux p = st'.lux p) →
    ∀ p, A p = true →
      (floodAux ms seeThrough fuel1 Q st).lux p =
      (floodAux ms seeThrough fuel2 (Q.filter fun q => A q.pos) st').lux p := by
  intro fuel1
  induction fuel1 with
  | zero =>
    intro Q st st' fuel2 hm1 hm2 hQ hag p hp
    have hQnil : Q = [] := by
      cases hq : Q with
      | nil => rfl
      | cons e rest =>
        rw [hq, floodMeasure, List.length_cons] at hm1
        omega
    subst hQnil
    simp only [List.filter_nil]
    rw [floodAux_nil, floodAux_nil]
    exact (hag p hp).2
  | succ f ih =>
    intro Q st st' fuel2 hm1 hm2 hQ hag p hp
    cases Q with
    | nil =>
      simp only [List.filter_nil]
      rw [floodAux_nil, floodAux_nil]
      exact (hag p hp).2
    | cons e rest =>
      have hQrest := fun q hq => hQ q (List.mem_cons_of_mem e hq)
      simp only [List.filter_cons] at hm2 ⊢
      by_cases hskip : e.dist ≤ 0 ∨ e.lux < 1 / 1000
      · have hstep : floodAux ms seeThrough (f + 1) (e :: rest) st =
            floodAux ms seeThrough f rest st := by
          simp only [floodAux, if_pos hskip]
        rw [hstep]
        have hm1' : floodMeasure ms rest st ≤ f := by
          rw [floodMeasure, List.length_cons] at hm1
          rw [floodMeasure]
          omega
        by_cases hA : A e.pos = true
        · rw [if_pos hA] at hm2 ⊢
          cases fuel2 with
          | zero =>
            exfalso
            rw [floodMeasure, List.length_cons] at hm2
            omega
          | succ f2 =>
            have hstep' : floodAux ms seeThrough (f2 + 1)
                (e :: rest.filter fun q => A q.pos) st' =
                floodAux ms seeThrough f2 (rest.filter fun q => A q.pos) st' := by
              simp only [floodAux, if_pos hskip]
            rw [hstep']
            refine ih rest st st' f2 hm1' ?_ hQrest hag p hp
            rw [floodMeasure, List.length_cons] at hm2
            rw [floodMeasure]
            omega
        · rw [if_neg hA] at hm2 ⊢
          exact ih rest st st' fuel2 hm1' hm2 hQrest hag p hp
      · have hdist : 0 < e.dist := by
          push_neg at hskip
          exact hskip.1
        obtain ⟨new, hnew, hf⟩ := expandEntry_spec ms seeThrough e st
        have hstep : floodAux ms seeThrough (f + 1) (e :: rest) st =
            floodAux ms seeThrough f (rest ++ new)
              (expandEntry ms seeThrough e st).1 := by
          simp only [floodAux, if_neg hskip]
          rw [hnew]
        rw [hstep]
        have hcount := unvisitedCount_expand ms hf.visited_iff hf.entry_inb
          hf.entry_unvisited hf.nodup
        have hm1' : floodMeasure ms (rest ++ new)
            (expandEntry ms seeThrough e st).1 ≤ f := by
          rw [floodMeasure, List.length_cons] at hm1
          rw [floodMeasure, List.length_append]
          omega
        have hballnew : ∀ q ∈ new, ∀ r, entryBall q r → entryBall e r := by
          intro q hq r hball
          obtain ⟨d, hd, hqd⟩ := hf.mem_dir q hq
          exact entryBall_push hdist hd hqd (hf.entry_shape q hq).1 r hball
        by_cases hA : A e.pos = true
        · -- the expanded entry is an A-entry
          have hball : ∀ r, entryBall e r → A r = true := by
            rcases hQ e (List.mem_cons_self _ _) with h | h
            · exact h
            · have := h e.pos (entryBall_pos e)
              rw [this] at hA
              simp at hA
          have hagd : ∀ d ∈ directions, st.visited (dirNeighbor e.pos d) =
              st'.visited (dirNeighbor e.pos d) :=
            fun d hd => (hag _ (hball _ (dirNeighbor_mem_ball hdist hd))).1
          obtain ⟨hqeq, hpt⟩ := expandEntry_congr ms seeThrough e st st' hagd
          rw [if_pos hA] at hm2 ⊢
          cases fuel2 with
          | zero =>
            exfalso
            rw [floodMeasure, List.length_cons] at hm2
            omega
          | succ f2 =>
            have hstep' : floodAux ms seeThrough (f2 + 1)
                (e :: rest.filter fun q => A q.pos) st' =
                floodAux ms seeThrough f2 ((rest.filter fun q => A q.pos) ++ new)
                  (expandEntry ms seeThrough e st').1 := by
              simp only [floodAux, if_neg hskip]
              rw [← hqeq, hnew]
            rw [hstep']
            obtain ⟨new', hnew', hf'⟩ := expandEntry_spec ms seeThrough e st'
            have hne : new' = new := by
              rw [← hnew', ← hqeq, hnew]
            have hcount' := unvisitedCount_expand ms hf'.visited_iff hf'.entry_inb
              hf'.entry_unvisited hf'.nodup
            rw [hne] at hcount'
            have hm2' : floodMeasure ms ((rest.filter fun q => A q.pos) ++ new)
                (expandEntry ms seeThrough e st').1 ≤ f2 := by
              rw [floodMeasure, List.length_cons] at hm2
              rw [floodMeasure, List.length_append]
              omega
            have hfq : ((rest ++ new).filter fun q => A q.pos) =
                (rest.filter fun q => A q.pos) ++ new := by
              rw [List.filter_append]
              congr 1
              refine List.filter_eq_self.mpr ?_
              intro q hq
              simpa using hball q.pos (hballnew q hq q.pos (entryBall_pos q))
            refine ih (rest ++ new) (expandEntry ms seeThrough e st).1
              (expandEntry ms seeThrough e st').1 f2 hm1' (by rw [hfq]; exact hm2')
              ?_ ?_ p hp |>.trans (by rw [hfq])
            · intro q hq
              rcases List.mem_append.mp hq with hq | hq
              · exact hQrest q hq
              · exact Or.inl fun r hr => hball r (hballnew q hq r hr)
            · intro r hr
              exact hpt r (hag r hr).1 (hag r hr).2
        · -- the expanded entry is a non-A entry: its writes miss A entirely
          have hball : ∀ r, entryBall e r → A r = false := by
            rcases hQ e (List.mem_cons_self _ _) with h | h
            · have := h e.pos (entryBall_pos e)
              exact absurd this hA
            · exact h
          rw [if_neg hA] at hm2 ⊢
          have hag' : ∀ r, A r = true →
              (expandEntry ms seeThrough e st).1.visited r = st'.visited r ∧
              (expandEntry ms seeThrough e st).1.lux r = st'.lux r := by
            intro r hr
            have hrb : ∀ d ∈ directions, r ≠ dirNeighbor e.pos d := by
              intro d hd he'
              have := hball r (he' ▸ dirNeighbor_mem_ball hdist hd)
              rw [this] at hr
              simp at hr
            obtain ⟨h1, h2⟩ := expandEntry_untouched ms seeThrough e st r hrb
            exact ⟨h1.trans (hag r hr).1, h2.trans (hag r hr).2⟩
          have hfq : ((rest ++ new).filter fun q => A q.pos) =
              (rest.filter fun q => A q.pos) := by
            rw [List.filter_append]
            have hdrop : (new.filter fun q => A q.pos) = [] := by
              refine List.filter_eq_nil_iff.mpr ?_
              intro q hq
              simp only [Bool.not_eq_true]
              exact hball q.pos (hballnew q hq q.pos (entryBall_pos q))
            rw [hdrop, List.append_nil]
          refine ih (rest ++ new) (expandEntry ms seeThrough e st).1 st' fuel2
            hm1' (by rw [hfq]; exact hm2) ?_ hag' p hp |>.trans (by rw [hfq])
          intro q hq
          rcases List.mem_append.mp hq with hq | hq
          · exact hQrest q hq
          · exact Or.inr fun r hr => hball r (hballnew q hq r hr)

/-- A tile outside every queue entry's influence ball keeps its initial lux
through the whole flood. -/
theorem flood_untouched (ms : MapSize) (seeThrough : BoardPosition → Bool)
    (Q : List QEntry) (st : FloodState) (fuel : ℕ)
    (hm : floodMeasure ms Q st ≤ fuel)
    (p : BoardPosition) (hp : ∀ q ∈ Q, ¬ entryBall q p) :
    (floodAux ms seeThrough fuel Q st).lux p = st.lux p := by
  have hfilter : (Q.filter fun q => decide (∀ q' ∈ Q, ¬ entryBall q' q.pos)) = [] := by
    refine List.filter_eq_nil_iff.mpr ?_
    intro q hq
    simp only [Bool.not_eq_true]
    exact decide_eq_false fun hall => hall q hq (entryBall_pos q)
  have hm2 : floodMeasure ms
      (Q.filter fun q => decide (∀ q' ∈ Q, ¬ entryBall q' q.pos)) st ≤ fuel := by
    rw [hfilter]
    rw [floodMeasure] at hm ⊢
    simp only [List.length_nil]
    omega
  have h := flood_noninterfere ms seeThrough
    (fun r => decide (∀ q' ∈ Q, ¬ entryBall q' r)) fuel Q st st fuel hm hm2
    (fun q hq => Or.inr fun r hr =>
      decide_eq_false fun hall => hall q hq hr)
    (fun r _ => ⟨rfl, rfl⟩) p (decide_eq_true hp)
  rw [hfilter, floodAux_nil] at h
  exact h

end Unhaunter

namespace Unhaunter

/-- The queue entry seeded for one dynamic light
(utils.rs line 322: `queue.push_back((pos, distance, lux, color))`). -/
def seedEntry (dl : DynLight) : QEntry := ⟨dl.pos, dl.distance, dl.lux, dl.color⟩

/-- The state `add_dynamic_light_sources` has built when its seeding loop
finishes, over a zero initial lux field. -/
def seededState (color0 : BoardPosition → ℚ × ℚ × ℚ) (lights : List DynLight) :
    FloodState :=
  (lights.foldl seedDynLight (⟨fun _ => 0, color0, fun _ => false⟩, [])).1

theorem add_dyn_eq_floodAux (ms : MapSize) (seeThrough : BoardPosition → Bool)
    (color0 : BoardPosition → ℚ × ℚ × ℚ) (lights : List DynLight) :
    add_dynamic_light_sources ms seeThrough (fun _ => 0) color0 lights =
    floodAux ms seeThrough (2 * volume ms + lights.length)
      (lights.map seedEntry) (seededState color0 lights) := by
  have hq := (seedDynLight_fold_spec lights ⟨fun _ => 0, color0, fun _ => false⟩ []).1
  rw [List.nil_append] at hq
  simp only [add_dynamic_light_sources, seededState]
  rw [hq, floodFuel, List.length_map]
  rfl

theorem floodMeasure_le (ms : MapSize) (Q : List QEntry) (st : FloodState) :
    floodMeasure ms Q st ≤ 2 * volume ms + Q.length := by
  have := unvisitedCount_le ms st
  rw [floodMeasure]
  omega

end Unhaunter

namespace Unhaunter

set_option maxHeartbeats 1000000 in
/-- C2 (amended): additivity of the dynamic flood holds for two sources whose
influence balls are disjoint (separated farther than their hop budgets reach,
or lying on different z-planes): the two-source flood assigns every tile
exactly the sum of the two single-source floods, over a zero initial lux
field, for every see-through configuration. (The disjointness condition is
forced: where the regions overlap the first wavefront to reach a tile marks
it visited and the second contributes nothing there, so the combined lux
falls short of the sum.) -/
theorem c2_additivity_amended (ms : MapSize) (seeThrough : BoardPosition → Bool)
    (color0 : BoardPosition → ℚ × ℚ × ℚ) (dlA dlB : DynLight)
    (hsep : ∀ r, entryBall (seedEntry dlA) r → entryBall (seedEntry dlB) r → False) :
    ∀ p, (add_dynamic_light_sources ms seeThrough (fun _ => 0) color0 [dlA, dlB]).lux p =
      (add_dynamic_light_sources ms seeThrough (fun _ => 0) color0 [dlA]).lux p +
      (add_dynamic_light_sources ms seeThrough (fun _ => 0) color0 [dlB]).lux p := by
  intro p
  have hv2 : ∀ r, (seededState color0 [dlA, dlB]).visited r =
      (if r = dlB.pos then true else if r = dlA.pos then true else false) :=
    fun r => rfl
  have hl2 : ∀ r, (seededState color0 [dlA, dlB]).lux r =
      (if r = dlB.pos then (if r = dlA.pos then (0 : ℚ) + dlA.lux else 0) + dlB.lux
       else (if r = dlA.pos then (0 : ℚ) + dlA.lux else 0)) :=
    fun r => rfl
  have hv1A : ∀ r, (seededState color0 [dlA]).visited r =
      (if r = dlA.pos then true else false) := fun r => rfl
  have hl1A : ∀ r, (seededState color0 [dlA]).lux r =
      (if r = dlA.pos then (0 : ℚ) + dlA.lux else 0) := fun r => rfl
  have hv1B : ∀ r, (seededState color0 [dlB]).visited r =
      (if r = dlB.pos then true else false) := fun r => rfl
  have hl1B : ∀ r, (seededState color0 [dlB]).lux r =
      (if r = dlB.pos then (0 : ℚ) + dlB.lux else 0) := fun r => rfl
  have hposB : entryBall (seedEntry dlB) dlB.pos := entryBall_pos (seedEntry dlB)
  have hposA : entryBall (seedEntry dlA) dlA.pos := entryBall_pos (seedEntry dlA)
  by_cases hpA : entryBall (seedEntry dlA) p
  · -- p lies in the first source's region
    have hpB : ¬ entryBall (seedEntry dlB) p := fun hb => hsep p hpA hb
    have hfAB : (([dlA, dlB].map seedEntry).filter fun q =>
        decide (entryBall (seedEntry dlA) q.pos)) = [dlA].map seedEntry := by
      simp only [List.map_cons, List.map_nil, List.filter_cons, List.filter_nil]
      rw [if_pos (decide_eq_true (entryBall_pos (seedEntry dlA))),
        if_neg (by rw [decide_eq_false fun h =>
          hsep (seedEntry dlB).pos h (entryBall_pos (seedEntry dlB))]; simp)]
    have hagree : ∀ r, (fun r => decide (entryBall (seedEntry dlA) r)) r = true →
        (seededState color0 [dlA, dlB]).visited r =
          (seededState color0 [dlA]).visited r ∧
        (seededState color0 [dlA, dlB]).lux r = (seededState color0 [dlA]).lux r := by
      intro r hr
      have hrA : entryBall (seedEntry dlA) r := of_decide_eq_true hr
      have hrB : r ≠ dlB.pos := fun he => hsep r hrA (by rw [he]; exact hposB)
      constructor
      · rw [hv2 r, hv1A r, if_neg hrB]
      · rw [hl2 r, hl1A r, if_neg hrB]
    have hA1 : (add_dynamic_light_sources ms seeThrough (fun _ => 0) color0
        [dlA, dlB]).lux p =
        (add_dynamic_light_sources ms seeThrough (fun _ => 0) color0 [dlA]).lux p := by
      rw [add_dyn_eq_floodAux, add_dyn_eq_floodAux]
      have h := flood_noninterfere ms seeThrough
        (fun r => decide (entryBall (seedEntry dlA) r))
        (2 * volume ms + ([dlA, dlB] : List DynLight).length)
        ([dlA, dlB].map seedEntry)
        (seededState color0 [dlA, dlB]) (seededState color0 [dlA])
        (2 * volume ms + ([dlA] : List DynLight).length)
        (by have := floodMeasure_le ms ([dlA, dlB].map seedEntry)
              (seededState color0 [dlA, dlB])
            rwa [List.length_map] at this)
        (by rw [hfAB]
            have := floodMeasure_le ms ([dlA].map seedEntry)
              (seededState color0 [dlA])
            rwa [List.length_map] at this)
        (by intro q hq
            simp only [List.map_cons, List.map_nil, List.mem_cons,
              List.not_mem_nil, or_false] at hq
            rcases hq with rfl | rfl
            · exact Or.inl fun r hr => decide_eq_true hr
            · exact Or.inr fun r hr => decide_eq_false fun hA' => hsep r hA' hr)
        hagree p (decide_eq_true hpA)
      rw [hfAB] at h
      exact h
    have hB0 : (add_dynamic_light_sources ms seeThrough (fun _ => 0) color0
        [dlB]).lux p = 0 := by
      rw [add_dyn_eq_floodAux]
      rw [flood_untouched ms seeThrough ([dlB].map seedEntry)
        (seededState color0 [dlB]) (2 * volume ms + ([dlB] : List DynLight).length)
        (by have := floodMeasure_le ms ([dlB].map seedEntry)
              (seededState color0 [dlB])
            rwa [List.length_map] at this)
        p
        (by intro q hq
            simp only [List.map_cons, List.map_nil, List.mem_cons,
              List.not_mem_nil, or_false] at hq
            subst hq
            exact hpB)]
      rw [hl1B p, if_neg fun he => hsep p hpA (by rw [he]; exact hposB)]
    rw [hA1, hB0, add_zero]
  · by_cases hpB : entryBall (seedEntry dlB) p
    · -- p lies in the second source's region
      have hfBB : (([dlA, dlB].map seedEntry).filter fun q =>
          decide (entryBall (seedEntry dlB) q.pos)) = [dlB].map seedEntry := by
        simp only [List.map_cons, List.map_nil, List.filter_cons, List.filter_nil]
        rw [if_neg (by rw [decide_eq_false fun h =>
            hsep (seedEntry dlA).pos (entryBall_pos (seedEntry dlA)) h]; simp),
          if_pos (decide_eq_true (entryBall_pos (seedEntry dlB)))]
      have hagree : ∀ r, (fun r => decide (entryBall (seedEntry dlB) r)) r = true →
          (seededState color0 [dlA, dlB]).visited r =
            (seededState color0 [dlB]).visited r ∧
          (seededState color0 [dlA, dlB]).lux r = (seededState color0 [dlB]).lux r := by
        intro r hr
        have hrB : entryBall (seedEntry dlB) r := of_decide_eq_true hr
        have hrA : r ≠ dlA.pos := fun he => hsep r (by rw [he]; exact hposA) hrB
        constructor
        · rw [hv2 r, hv1B r]
          by_cases hb : r = dlB.pos
          · rw [if_pos hb, if_pos hb]
          · rw [if_neg hb, if_neg hb, if_neg hrA]
        · rw [hl2 r, hl1B r]
          by_cases hb : r = dlB.pos
          · rw [if_pos hb, if_pos hb, if_neg hrA]
          · rw [if_neg hb, if_neg hb, if_neg hrA]
      have hB1 : (add_dynamic_light_sources ms seeThrough (fun _ => 0) color0
          [dlA, dlB]).lux p =
          (add_dynamic_light_sources ms seeThrough (fun _ => 0) color0 [dlB]).lux p := by
        rw [add_dyn_eq_floodAux, add_dyn_eq_floodAux]
        have h := flood_noninterfere ms seeThrough
          (fun r => decide (entryBall (seedEntry dlB) r))
          (2 * volume ms + ([dlA, dlB] : List DynLight).length)
          ([dlA, dlB].map seedEntry)
          (seededState color0 [dlA, dlB]) (seededState color0 [dlB])
          (2 * volume ms + ([dlB] : List DynLight).length)
          (by have := floodMeasure_le ms ([dlA, dlB].map seedEntry)
                (seededState color0 [dlA, dlB])
              rwa [List.length_map] at this)
          (by rw [hfBB]
              have := floodMeasure_le ms ([dlB].map seedEntry)
                (seededState color0 [dlB])
              rwa [List.length_map] at this)
          (by intro q hq
              simp only [List.map_cons, List.map_nil, List.mem_cons,
                List.not_mem_nil, or_false] at hq
              rcases hq with rfl | rfl
              · exact Or.inr fun r hr => decide_eq_false fun hB' => hsep r hr hB'
              · exact Or.inl fun r hr => decide_eq_true hr)
          hagree p (decide_eq_true hpB)
        rw [hfBB] at h
        exact h
      have hA0 : (add_dynamic_light_sources ms seeThrough (fun _ => 0) color0
          [dlA]).lux p = 0 := by
        rw [add_dyn_eq_floodAux]
        rw [flood_untouched ms seeThrough ([dlA].map seedEntry)
          (seededState color0 [dlA]) (2 * volume ms + ([dlA] : List DynLight).length)
          (by have := floodMeasure_le ms ([dlA].map seedEntry)
                (seededState color0 [dlA])
              rwa [List.length_map] at this)
          p
          (by intro q hq
              simp only [List.map_cons, List.map_nil, List.mem_cons,
                List.not_mem_nil, or_false] at hq
              subst hq
              exact hpA)]
        rw [hl1A p, if_neg fun he => hpA (by rw [he]; exact hposA)]
      rw [hB1, hA0, zero_add]
    · -- p lies in neither region: every run leaves it at zero
      have hnA : p ≠ dlA.pos := fun he => hpA (by rw [he]; exact hposA)
      have hnB : p ≠ dlB.pos := fun he => hpB (by rw [he]; exact hposB)
      have hC0 : (add_dynamic_light_sources ms seeThrough (fun _ => 0) color0
          [dlA, dlB]).lux p = 0 := by
        rw [add_dyn_eq_floodAux]
        rw [flood_untouched ms seeThrough ([dlA, dlB].map seedEntry)
          (seededState color0 [dlA, dlB])
          (2 * volume ms + ([dlA, dlB] : List DynLight).length)
          (by have := floodMeasure_le ms ([dlA, dlB].map seedEntry)
                (seededState color0 [dlA, dlB])
              rwa [List.length_map] at this)
          p
          (by intro q hq
              simp only [List.map_cons, List.map_nil, List.mem_cons,
                List.not_mem_nil, or_false] at hq
              rcases hq with rfl | rfl
              · exact hpA
              · exact hpB)]
        rw [hl2 p, if_neg hnB, if_neg hnA]
      have hA0 : (add_dynamic_light_sources ms seeThrough (fun _ => 0) color0
          [dlA]).lux p = 0 := by
        rw [add_dyn_eq_floodAux]
        rw [flood_untouched ms seeThrough ([dlA].map seedEntry)
          (seededState color0 [dlA]) (2 * volume ms + ([dlA] : List DynLight).length)
          (by have := floodMeasure_le ms ([dlA].map seedEntry)
                (seededState color0 [dlA])
              rwa [List.length_map] at this)
          p
          (by intro q hq
              simp only [List.map_cons, List.map_nil, List.mem_cons,
                List.not_mem_nil, or_false] at hq
              subst hq
              exact hpA)]
        rw [hl1A p, if_neg hnA]
      have hB0 : (add_dynamic_light_sources ms seeThrough (fun _ => 0) color0
          [dlB]).lux p = 0 := by
        rw [add_dyn_eq_floodAux]
        rw [flood_untouched ms seeThrough ([dlB].map seedEntry)
          (seededState color0 [dlB]) (2 * volume ms + ([dlB] : List DynLight).length)
          (by have := floodMeasure_le ms ([dlB].map seedEntry)
                (seededState color0 [dlB])
              rwa [List.length_map] at this)
          p
          (by intro q hq
              simp only [List.map_cons, List.map_nil, List.mem_cons,
                List.not_mem_nil, or_false] at hq
              subst hq
              exact hpB)]
        rw [hl1B p, if_neg hnB]
      rw [hC0, hA0, hB0, add_zero]

end Unhaunter

namespace Unhaunter

set_option maxHeartbeats 4000000 in
/-- C2 counterexample: two independent intensity-8 sources at the two ends of
an all-see-through 5×1×1 strip. Each alone gives the middle tile
8 · (3/4)² = 4.5, but with both present the middle tile still ends at 4.5:
the first wavefront to write it marks it visited and the second wavefront
skips it, so the combined lux is 4.5 ≠ 4.5 + 4.5 — a factor-2 shortfall, far
beyond floating-point tolerance. -/
theorem c2_additivity_counterexample :
    ((⟨0, 0, 0⟩ : BoardPosition) ≠ ⟨4, 0, 0⟩) ∧
    (∀ r : BoardPosition, (fun _ : BoardPosition => true) r = true) ∧
    (add_dynamic_light_sources (5, 1, 1) (fun _ => true) (fun _ => 0)
        (fun _ => (1, 1, 1)) [⟨⟨0, 0, 0⟩, 8, (1, 1, 1), 30⟩,
          ⟨⟨4, 0, 0⟩, 8, (1, 1, 1), 30⟩]).lux ⟨2, 0, 0⟩ = 9 / 2 ∧
    (add_dynamic_light_sources (5, 1, 1) (fun _ => true) (fun _ => 0)
        (fun _ => (1, 1, 1)) [⟨⟨0, 0, 0⟩, 8, (1, 1, 1), 30⟩]).lux ⟨2, 0, 0⟩ = 9 / 2 ∧
    (add_dynamic_light_sources (5, 1, 1) (fun _ => true) (fun _ => 0)
        (fun _ => (1, 1, 1)) [⟨⟨4, 0, 0⟩, 8, (1, 1, 1), 30⟩]).lux ⟨2, 0, 0⟩ = 9 / 2 ∧
    (9 / 2 : ℚ) ≠ 9 / 2 + 9 / 2 := by
  refine ⟨by decide, fun r => rfl, ?_, ?_, ?_, by norm_num⟩
  · norm_num [add_dynamic_light_sources, floodFuel, volume, seedDynLight,
      floodAux, expandEntry, stepNeighbor, directions, dirNeighbor, is_in_bounds,
      blend_colors, BoardPosition.mk.injEq]
  · norm_num [add_dynamic_light_sources, floodFuel, volume, seedDynLight,
      floodAux, expandEntry, stepNeighbor, directions, dirNeighbor, is_in_bounds,
      blend_colors, BoardPosition.mk.injEq]
  · norm_num [add_dynamic_light_sources, floodFuel, volume, seedDynLight,
      floodAux, expandEntry, stepNeighbor, directions, dirNeighbor, is_in_bounds,
      blend_colors, BoardPosition.mk.injEq]

/-- C2 witness: two sources on different z-planes of a 1×1×2 board have
disjoint influence balls (the flood never leaves its plane), so the two-source
flood is exactly the sum of the single-source floods. -/
theorem c2_additivity_amended_witness :
    (add_dynamic_light_sources (1, 1, 2) (fun _ => true) (fun _ => 0)
        (fun _ => ((0 : ℚ), (0 : ℚ), (0 : ℚ)))
        [⟨⟨0, 0, 0⟩, 8, (1, 1, 1), 2⟩, ⟨⟨0, 0, 1⟩, 8, (1, 1, 1), 2⟩]).lux ⟨0, 0, 0⟩ =
      (add_dynamic_light_sources (1, 1, 2) (fun _ => true) (fun _ => 0)
        (fun _ => ((0 : ℚ), (0 : ℚ), (0 : ℚ)))
        [⟨⟨0, 0, 0⟩, 8, (1, 1, 1), 2⟩]).lux ⟨0, 0, 0⟩ +
      (add_dynamic_light_sources (1, 1, 2) (fun _ => true) (fun _ => 0)
        (fun _ => ((0 : ℚ), (0 : ℚ), (0 : ℚ)))
        [⟨⟨0, 0, 1⟩, 8, (1, 1, 1), 2⟩]).lux ⟨0, 0, 0⟩ :=
  c2_additivity_amended (1, 1, 2) (fun _ => true)
    (fun _ => ((0 : ℚ), (0 : ℚ), (0 : ℚ)))
    ⟨⟨0, 0, 0⟩, 8, (1, 1, 1), 2⟩ ⟨⟨0, 0, 1⟩, 8, (1, 1, 1), 2⟩
    (by
      intro r h1 h2
      simp only [entryBall, seedEntry] at h1 h2
      rcases h1 with rfl | ⟨hz1, -⟩ <;> rcases h2 with h2 | ⟨hz2, -⟩ <;>
        simp_all [BoardPosition.mk.injEq])
    ⟨0, 0, 0⟩

end Unhaunter

namespace Unhaunter

/-- The fields of `Behavior` the lighting branch of `boardfield_update`
reads (`ungame/src/board.rs` lines 351–357): per-entity light emissivity,
transmissivity factor and additional light data — process constants of the
entity snapshot. -/
structure LightBehavior where
  emmisivity_lumens : ℚ
  transmissivity_factor : ℚ
  additional_data : ℚ
deriving DecidableEq

/-- The part of `BoardData` the lighting rebuild reads and writes:
`light_field` (modelled as an association list in deterministic iteration
order) and `exposure_lux`. -/
structure BoardLighting where
  light_field : List (BoardPosition × LightFieldData)
  exposure_lux : ℚ

/-- The `CachedBoardPos` distance/angle/angle-range tables and the
`faster::tanh` approximation: constants rebuilt identically at the start of
every lighting rebuild (`CachedBoardPos::new()`, board.rs lines 120–199) from
`f32` trigonometry, abstracted as parameters of the embedding. -/
structure ShadowKernels where
  bpos_dist : BoardPosition → BoardPosition → ℚ
  bpos_angle : BoardPosition → BoardPosition → ℕ
  bpos_angle_range : BoardPosition → BoardPosition → ℤ × ℤ
  tanh : ℚ → ℚ

/-- `CachedBoardPos::TAU_I = 48 * 2` (board.rs line 123): the number of angle
buckets of the shadow table. -/
def TAU_I : ℕ := 48 * 2

/-- `f32::MAX` as an exact rational: `(2^24 - 1) · 2^104`. -/
def f32MAX : ℚ := (2 ^ 24 - 1) * 2 ^ 104

/-- `HashMap::insert` on the association-list model: replace the value at an
existing key, else append. -/
def lfInsert (k : BoardPosition) (v : LightFieldData)
    (m : List (BoardPosition × LightFieldData)) :
    List (BoardPosition × LightFieldData) :=
  if m.any fun kv => kv.1 == k then
    m.map fun kv => if kv.1 == k then (k, v) else kv
  else m ++ [(k, v)]

/-- The light-collection loop (board.rs lines 338–358): fold every entity
into the freshly cleared `light_field`, reading the in-progress map back so
that co-located emitters accumulate (`src.lux + emmisivity`). The real
`LightFieldData` here has no color component; the model's `color` field is
held at zero. -/
def collect_light (entities : List (BoardPosition × LightBehavior)) :
    List (BoardPosition × LightFieldData) :=
  entities.foldl
    (fun lf pb =>
      let src := (lf.lookup pb.1).getD
        { lux := 0, transmissivity := 1, color := (0, 0, 0), additional := 0 }
      lfInsert pb.1
        { lux := pb.2.emmisivity_lumens + src.lux,
          transmissivity := pb.2.transmissivity_factor * src.transmissivity + 1 / 10000,
          color := (0, 0, 0),
          additional := src.additional + pb.2.additional_data } lf)
    []

/-- The entity bounding box (board.rs lines 325–345): seeded from the first
entity (the origin when there is none) and expanded with `min`/`max` over all
entity positions. The source interleaves this fold with the collection loop;
the two folds are independent, so they are modelled separately. -/
def lightingBBox (entities : List (BoardPosition × LightBehavior)) :
    (ℤ × ℤ × ℤ) × (ℤ × ℤ × ℤ) :=
  let first_p : BoardPosition := ((entities.head?).map fun pb => pb.1).getD ⟨0, 0, 0⟩
  entities.foldl
    (fun acc pb =>
      ((min acc.1.1 pb.1.x, min acc.1.2.1 pb.1.y, min acc.1.2.2 pb.1.z),
       (max acc.2.1 pb.1.x, max acc.2.2.1 pb.1.y, max acc.2.2.2 pb.1.z)))
    ((first_p.x, first_p.y, first_p.z), (first_p.x, first_p.y, first_p.z))

/-- `LightFieldSector` (board.rs lines 33–110): a flat vector of
default-initialized cells with `15000` cells of slack, addressed by a
2-D coordinate that drops `z` entirely and clamps out-of-range offsets
(`vec_coord`, "purposefully allowing overflow and clamping to an out of
bounds value"). The backing vector is modelled as a total function plus a
length. -/
structure LightFieldSector where
  field : ℕ → LightFieldData
  len : ℕ
  smin_x : ℤ
  smin_y : ℤ
  sz_x : ℕ
  sz_y : ℕ

/-- `LightFieldSector::new` (board.rs lines 46–61). -/
def LightFieldSector.new (min_x min_y min_z max_x max_y max_z : ℤ) :
    LightFieldSector :=
  let sz_x := (max_x - min_x + 1).toNat
  let sz_y := (max_y - min_y + 1).toNat
  let sz_z := (max_z - min_z + 1).toNat
  { field := fun _ => LightFieldData.default,
    len := sz_x * sz_y * sz_z + 15000,
    smin_x := min_x, smin_y := min_y, sz_x := sz_x, sz_y := sz_y }

/-- `vec_coord` (board.rs lines 63–79): `z` is dropped; a negative offset
wraps around `usize` and is then clamped to `sz`, modelled by the sign test. -/
def LightFieldSector.vec_coord (s : LightFieldSector) (x y : ℤ) : ℕ :=
  let xi := if x - s.smin_x < 0 then s.sz_x else min (x - s.smin_x).toNat s.sz_x
  let yi := if y - s.smin_y < 0 then s.sz_y else min (y - s.smin_y).toNat s.sz_y
  xi + yi * s.sz_x

/-- `LightFieldSector::get` (board.rs lines 95–99): `Vec::get` semantics. -/
def LightFieldSector.get (s : LightFieldSector) (x y _z : ℤ) :
    Option LightFieldData :=
  if s.vec_coord x y < s.len then some (s.field (s.vec_coord x y)) else none

/-- `get_pos` (board.rs lines 86–88). -/
def LightFieldSector.get_pos (s : LightFieldSector) (p : BoardPosition) :
    Option LightFieldData :=
  s.get p.x p.y p.z

/-- In-range vector cell assignment: the common core of `insert`
(`self.field[xyz] = lfd`) and of writes through `get_mut`; out-of-range
indices leave the vector unchanged (the source only writes cells it has just
read successfully). -/
def LightFieldSector.setCell (s : LightFieldSector) (x y _z : ℤ)
    (v : LightFieldData) : LightFieldSector :=
  if s.vec_coord x y < s.len then
    { s with field := fun i => if i = s.vec_coord x y then v else s.field i }
  else s

/-- `LightFieldSector::insert` (board.rs lines 105–108). -/
def LightFieldSector.insert (s : LightFieldSector) (x y z : ℤ)
    (lfd : LightFieldData) : LightFieldSector :=
  s.setCell x y z lfd

/-- `lfs.get_mut_pos(&root_pos).unwrap().lux -= src_lux` (board.rs line 464). -/
def LightFieldSector.subLux (s : LightFieldSector) (p : BoardPosition) (dl : ℚ) :
    LightFieldSector :=
  match s.get_pos p with
  | some lf => s.setCell p.x p.y p.z { lf with lux := lf.lux - dl }
  | none => s

/-- `if let Some(lf) = lfs.get_mut_pos(neighbor) { lf.lux += ... }`
(board.rs lines 519–530). -/
def LightFieldSector.addLux (s : LightFieldSector) (p : BoardPosition) (dl : ℚ) :
    LightFieldSector :=
  match s.get_pos p with
  | some lf => s.setCell p.x p.y p.z { lf with lux := lf.lux + dl }
  | none => s

/-- `xy_neighbors_buf_clamped` (boardposition.rs lines 104–124): the square
of radius `dist` with each coordinate range clamped to the given bounds,
column-major (`x` outer, `y` inner), on the caller's z-plane. -/
def xy_neighbors_clamped (p : BoardPosition) (dist : ℕ)
    (min_x max_x min_y max_y : ℤ) : List BoardPosition :=
  let x1 := min (max (p.x - (dist : ℤ)) min_x) max_x
  let x2 := min (max (p.x + (dist : ℤ)) min_x) max_x
  let y1 := min (max (p.y - (dist : ℤ)) min_y) max_y
  let y2 := min (max (p.y + (dist : ℤ)) min_y) max_y
  (intRange x1 x2).flatMap fun x =>
    (intRange y1 y2).map fun y => (⟨x, y, p.z⟩ : BoardPosition)

/-- Per-step spread radius (board.rs lines 375–381). -/
def step_size (step : ℕ) : ℕ :=
  match step with
  | 0 => 26
  | 1 => 8
  | 2 => 6
  | 3 => 3
  | _ => 6

/-- Per-step lower lux threshold (board.rs lines 394–398). -/
def step_min_lux (step : ℕ) : ℚ :=
  match step with
  | 0 => 1 / 1000
  | 1 => 1 / 1000000
  | _ => 1 / 10000000000

/-- Per-step upper lux threshold (board.rs lines 399–405). -/
def step_max_lux (step : ℕ) : ℚ :=
  match step with
  | 0 => f32MAX
  | 1 => 10000
  | 2 => 1000
  | 3 => 1 / 10
  | _ => 1 / 100

/-- The shadow table fold (board.rs lines 466–490): 96 angle buckets
initialized to `size + 1`, min-reduced with the cached distance of every
opaque (transmissivity < 0.5) neighbor over its cached angle range, indices
wrapped with `rem_euclid`. -/
def shadowDist (kern : ShadowKernels) (lfs : LightFieldSector)
    (root : BoardPosition) (size : ℕ) (nbors : List BoardPosition) : ℕ → ℚ :=
  nbors.foldl
    (fun sd pillar =>
      match lfs.get_pos pillar with
      | none => sd
      | some lf =>
        if lf.transmissivity < 1 / 2 then
          let min_dist := kern.bpos_dist root pillar
          let angle := kern.bpos_angle root pillar
          let range := kern.bpos_angle_range root pillar
          (intRange range.1 range.2).foldl
            (fun sd2 d =>
              let ang := (((angle : ℤ) + d).emod (TAU_I : ℤ)).toNat
              fun i => if i = ang then min (sd2 i) min_dist else sd2 i)
            sd
        else sd)
    (fun _ => ((size + 1 : ℕ) : ℚ))

/-- The body of the innermost cell loop of one lighting pass (board.rs lines
385–533): threshold checks on the cloned source field, the smoothing guard
for steps > 0, the per-step harshness division, the self-subtraction at the
root, the shadow table, the wall zero-out, and the attenuated, shadow-gated
writes over the clamped `size`-square. -/
def lightPassCell (kern : ShadowKernels) (step : ℕ)
    (bb : (ℤ × ℤ × ℤ) × (ℤ × ℤ × ℤ)) (src_lfs : LightFieldSector)
    (lfs : LightFieldSector) (root_pos : BoardPosition) : LightFieldSector :=
  match src_lfs.get_pos root_pos with
  | none => lfs
  | some src =>
    let src_lux := src.lux
    if src_lux < step_min_lux step then lfs
    else if step_max_lux step < src_lux then lfs
    else
      let nbors1 := xy_neighbors_clamped root_pos 1 bb.1.1 bb.2.1 bb.1.2.1 bb.2.2.1
      let skip_smooth : Bool :=
        if 0 < step then
          let ldata := nbors1.filterMap fun b =>
            (lfs.get_pos b).map fun l => (l.lux, l.transmissivity)
          let min_lux : ℚ := ldata.foldl (fun m lt => min m lt.1) f32MAX
          let min_trans : ℚ := ldata.foldl (fun m lt => min m lt.2) 2
          decide ((7 / 10 : ℚ) < min_trans ∧ src_lux / (min_lux + 1 / 10000) < 19 / 10)
        else false
      if skip_smooth = true then lfs
      else
        let src_lux := if 0 < step then src_lux / (11 / 2) else src_lux / (101 / 100)
        let size := step_size step
        let nbors := xy_neighbors_clamped root_pos size bb.1.1 bb.2.1 bb.1.2.1 bb.2.2.1
        let lfs := lfs.subLux root_pos src_lux
        let sd0 := shadowDist kern lfs root_pos size nbors
        let sd := if src.transmissivity < 1 / 2 then (fun _ => (0 : ℚ)) else sd0
        nbors.foldl
          (fun acc neighbor =>
            let dist := kern.bpos_dist root_pos neighbor
            let dist2 := dist + 4
            let angle := kern.bpos_angle root_pos neighbor
            let sdv := sd angle
            let lux_add := src_lux / dist2 / dist2 / 2
            if dist - 3 < sdv then
              acc.addLux neighbor
                (lux_add * ((kern.tanh ((sdv - dist - 1 / 2) * (5 / 4)) + 1) / 2))
            else acc)
          lfs

/-- One lighting pass (board.rs lines 370–535): clone the field, then run the
cell body over the bounding box in `x`/`y`/`z` loop order. -/
def lightPass (kern : ShadowKernels) (step : ℕ)
    (bb : (ℤ × ℤ × ℤ) × (ℤ × ℤ × ℤ)) (lfs : LightFieldSector) :
    LightFieldSector :=
  let src_lfs := lfs
  ((intRange bb.1.1 bb.2.1).flatMap fun x =>
    (intRange bb.1.2.1 bb.2.2.1).flatMap fun y =>
      (intRange bb.1.2.2 bb.2.2.2).map fun z => (⟨x, y, z⟩ : BoardPosition)).foldl
    (lightPassCell kern step bb src_lfs) lfs

/-- The lighting branch of `boardfield_update` (board.rs lines 318–553).
The branch begins with `bf.exposure_lux = 1.0; bf.light_field.clear();`
(lines 321–322), wiping the previous lighting state before anything reads
it, so the rebuild never consults `_prior`: collection starts from the empty
map, the sector is filled from the fresh map, the three passes read only the
sector and the kernel tables, and the write-back and exposure finalization
read only the rebuilt entries. -/
def lighting_rebuild (kern : ShadowKernels)
    (entities : List (BoardPosition × LightBehavior)) (_prior : BoardLighting) :
    BoardLighting :=
  let light_field := collect_light entities
  let bb := lightingBBox entities
  let lfs0 := LightFieldSector.new bb.1.1 bb.1.2.1 bb.1.2.2 bb.2.1 bb.2.2.1 bb.2.2.2
  let lfs1 := light_field.foldl (fun s kv => s.insert kv.1.x kv.1.y kv.1.z kv.2) lfs0
  let lfs2 := [0, 1, 2].foldl (fun s step => lightPass kern step bb s) lfs1
  let light_field2 := light_field.map fun kv =>
    (kv.1, { kv.2 with lux := ((lfs2.get_pos kv.1).getD LightFieldData.default).lux })
  { light_field := light_field2,
    exposure_lux := boardfield_finalize_exposure light_field2 }

end Unhaunter

namespace Unhaunter

/-- C8: the lighting rebuild is deterministic and idempotent. Its output is a
function of the entity snapshot and the per-rebuild trigonometric kernel
tables alone — independent of the `light_field` and `exposure_lux` left by
any previous rebuild, because the branch clears both before reading anything —
and therefore running it twice in succession with no intervening state change
yields identical `light_field` contents and identical `exposure_lux` as
running it once. -/
theorem c8_lighting_rebuild_idempotent (kern : ShadowKernels)
    (entities : List (BoardPosition × LightBehavior)) (b b' : BoardLighting) :
    lighting_rebuild kern entities b = lighting_rebuild kern entities b' ∧
    lighting_rebuild kern entities (lighting_rebuild kern entities b) =
      lighting_rebuild kern entities b :=
  ⟨rfl, rfl⟩

end Unhaunter
